import Mathlib

set_option linter.unusedVariables false
set_option linter.unnecessarySeqFocus false

/- Verification development for the podStationPWA core: a shallow embedding of
   src/lib/OfflineStorageHandler.ts (the Dexie-backed local store) and of the
   podcasts controller (PodcastsController), together with proofs of the
   specified properties.

   Modelling conventions:
   - JavaScript Date values are natural-number timestamps.
   - The Dexie database is a pair of record lists plus the auto-increment
     counters of the two tables; the primary key is the optional id field.
   - Asynchronous methods become state-passing functions; a rejected promise
     becomes an Except.error result.
   - The index-backed queries reproduce the Dexie traversal order: an index
     traversal yields records ordered by the indexed key, ties broken by the
     primary key, and reverse() turns that order around; records whose
     indexed key is undefined are absent from the index. -/

structure Enclosure where
  url : String
  length : Nat
  type : String
deriving DecidableEq

structure Destination where
  name : String
  type : Option String := none
  address : String
  split : Option Nat := none
deriving DecidableEq

structure ValueModel where
  type : String
  method : Option String := none
  suggested : Option String := none
deriving DecidableEq

structure Value where
  model : ValueModel
  destinations : List Destination
deriving DecidableEq

inductive PodcastStatus where
  | new
  | processed
deriving DecidableEq

structure Podcast where
  id : Option Nat := none
  status : PodcastStatus
  feedUrl : String
  alternateFeedUrls : Option (List String) := none
  lastBuildDate : Option Nat := none
  lastItemPubDate : Option Nat := none
  firstItemPubDate : Option Nat := none
  title : Option String := none
  description : Option String := none
  link : Option String := none
  imageUrl : Option String := none
  subscribed : Bool
  podcastIndexOrgId : Option Nat := none
  podcastIndexOrgLastEpisodeFetch : Option Nat := none
  value : Option (List Value) := none
deriving DecidableEq

structure Episode where
  id : Option Nat := none
  podcastId : Nat
  title : Option String := none
  link : Option String := none
  description : Option String := none
  imageUrl : Option String := none
  categories : Option (List String) := none
  pubDate : Option Nat := none
  enclosure : Option Enclosure := none
  duration : Option Nat := none
  guid : Option String := none
  podcastIndexOrgId : Nat
  position : Option Nat := none
  lastTimeListened : Option Nat := none
  finished : Option Bool := none
deriving DecidableEq

/-- Partial podcast record, the embedding of RequireOnlyId of Podcast as fed to
Dexie update: an outer some means the key is present in the change object (its
payload may itself be undefined, which clears the stored field). -/
structure PodcastPatch where
  id : Nat
  status : Option PodcastStatus := none
  feedUrl : Option String := none
  alternateFeedUrls : Option (Option (List String)) := none
  lastBuildDate : Option (Option Nat) := none
  lastItemPubDate : Option (Option Nat) := none
  firstItemPubDate : Option (Option Nat) := none
  title : Option (Option String) := none
  description : Option (Option String) := none
  link : Option (Option String) := none
  imageUrl : Option (Option String) := none
  subscribed : Option Bool := none
  podcastIndexOrgId : Option (Option Nat) := none
  podcastIndexOrgLastEpisodeFetch : Option (Option Nat) := none
  value : Option (Option (List Value)) := none

/-- Partial episode record, the embedding of RequireOnlyId of Episode. -/
structure EpisodePatch where
  id : Nat
  podcastId : Option Nat := none
  title : Option (Option String) := none
  link : Option (Option String) := none
  description : Option (Option String) := none
  imageUrl : Option (Option String) := none
  categories : Option (Option (List String)) := none
  pubDate : Option (Option Nat) := none
  enclosure : Option (Option Enclosure) := none
  duration : Option (Option Nat) := none
  guid : Option (Option String) := none
  podcastIndexOrgId : Option Nat := none
  position : Option (Option Nat) := none
  lastTimeListened : Option (Option Nat) := none
  finished : Option (Option Bool) := none

def applyPodcastPatch (p : Podcast) (c : PodcastPatch) : Podcast :=
  { p with
    status := c.status.getD p.status
    feedUrl := c.feedUrl.getD p.feedUrl
    alternateFeedUrls := c.alternateFeedUrls.getD p.alternateFeedUrls
    lastBuildDate := c.lastBuildDate.getD p.lastBuildDate
    lastItemPubDate := c.lastItemPubDate.getD p.lastItemPubDate
    firstItemPubDate := c.firstItemPubDate.getD p.firstItemPubDate
    title := c.title.getD p.title
    description := c.description.getD p.description
    link := c.link.getD p.link
    imageUrl := c.imageUrl.getD p.imageUrl
    subscribed := c.subscribed.getD p.subscribed
    podcastIndexOrgId := c.podcastIndexOrgId.getD p.podcastIndexOrgId
    podcastIndexOrgLastEpisodeFetch :=
      c.podcastIndexOrgLastEpisodeFetch.getD p.podcastIndexOrgLastEpisodeFetch
    value := c.value.getD p.value }

def applyEpisodePatch (e : Episode) (c : EpisodePatch) : Episode :=
  { e with
    podcastId := c.podcastId.getD e.podcastId
    title := c.title.getD e.title
    link := c.link.getD e.link
    description := c.description.getD e.description
    imageUrl := c.imageUrl.getD e.imageUrl
    categories := c.categories.getD e.categories
    pubDate := c.pubDate.getD e.pubDate
    enclosure := c.enclosure.getD e.enclosure
    duration := c.duration.getD e.duration
    guid := c.guid.getD e.guid
    podcastIndexOrgId := c.podcastIndexOrgId.getD e.podcastIndexOrgId
    position := c.position.getD e.position
    lastTimeListened := c.lastTimeListened.getD e.lastTimeListened
    finished := c.finished.getD e.finished }

/-- The Dexie database named podStation: the two tables plus their
auto-increment counters. -/
structure DB where
  podcasts : List Podcast := []
  episodes : List Episode := []
  nextPodcastId : Nat := 1
  nextEpisodeId : Nat := 1
deriving DecidableEq

def DB.empty : DB := {}

/-- Key encoding used to model index order: an undefined key sorts below every
defined one (it does not occur in an index at all where that matters, and the
queries that sort after fetching never see one in the verified scenarios). -/
def optKey : Option Nat → Nat
  | none => 0
  | some d => d + 1

/-- Descending order on an episode key, ties broken by descending primary key:
the order produced by reverse() on a Dexie index traversal or by
reverse().sortBy on a collection. -/
def descRel (k : Episode → Option Nat) (a b : Episode) : Prop :=
  optKey (k b) < optKey (k a) ∨
    (optKey (k b) = optKey (k a) ∧ optKey b.id ≤ optKey a.id)

instance (k : Episode → Option Nat) : DecidableRel (descRel k) := fun a b =>
  inferInstanceAs (Decidable (_ ∨ _))

instance (k : Episode → Option Nat) : IsTotal Episode (descRel k) where
  total a b := by
    unfold descRel
    omega

instance (k : Episode → Option Nat) : IsTrans Episode (descRel k) where
  trans a b c hab hbc := by
    unfold descRel at *
    omega

def sortByDesc (k : Episode → Option Nat) (l : List Episode) : List Episode :=
  List.insertionSort (descRel k) l

namespace OfflineStorageHandler

/-- Embeds db.podcasts.add: assigns the next auto-increment id and returns it;
rejects with a ConstraintError when the unique feedUrl index is violated. -/
def addPodcast (db : DB) (p : Podcast) : Except String (DB × Nat) :=
  if db.podcasts.any (fun q => q.feedUrl == p.feedUrl) then
    Except.error "ConstraintError: feedUrl exists"
  else
    Except.ok
      ({ db with
          podcasts := db.podcasts ++ [{ p with id := some db.nextPodcastId }]
          nextPodcastId := db.nextPodcastId + 1 },
        db.nextPodcastId)

/-- Embeds db.podcasts.update(id, changes): a partial merge on the record with
the given primary key; a missing id is a tolerated no-op. -/
def updatePodcast (db : DB) (c : PodcastPatch) : DB :=
  { db with
    podcasts := db.podcasts.map
      (fun q => if q.id = some c.id then applyPodcastPatch q c else q) }

/-- Embeds the two-step cascading delete: episodes with the matching podcastId
first, then the podcast itself. -/
def deletePodcastById (db : DB) (podcastId : Nat) : DB :=
  { db with
    episodes := db.episodes.filter (fun e => decide (e.podcastId ≠ podcastId))
    podcasts := db.podcasts.filter (fun p => decide (p.id ≠ some podcastId)) }

def getPodcasts (db : DB) : List Podcast :=
  db.podcasts

def getPodcast (db : DB) (feedUrl : String) : Option Podcast :=
  db.podcasts.find? (fun p => p.feedUrl == feedUrl)

def getPodcastById (db : DB) (id : Nat) : Option Podcast :=
  db.podcasts.find? (fun p => p.id == some id)

/-- Embeds one step of db.episodes.bulkPut: a record carrying a primary key
replaces the stored record with that key wholesale (or is inserted under that
key), a record without one is inserted under a fresh auto-increment key. -/
def putEpisode (db : DB) (e : Episode) : DB :=
  match e.id with
  | some i =>
    if db.episodes.any (fun s => s.id == some i) then
      { db with
        episodes := db.episodes.map (fun s => if s.id = some i then e else s) }
    else
      { db with
        episodes := db.episodes ++ [e]
        nextEpisodeId := max db.nextEpisodeId (i + 1) }
  | none =>
    { db with
      episodes := db.episodes ++ [{ e with id := some db.nextEpisodeId }]
      nextEpisodeId := db.nextEpisodeId + 1 }

def putEpisodes (db : DB) (episodes : List Episode) : DB :=
  episodes.foldl putEpisode db

/-- Embeds db.episodes.update(id, changes). -/
def updateEpisode (db : DB) (c : EpisodePatch) : DB :=
  { db with
    episodes := db.episodes.map
      (fun s => if s.id = some c.id then applyEpisodePatch s c else s) }

/-- Embeds where podcastId equals pid, reverse().sortBy(pubDate): the episodes
of one podcast, publish date descending. -/
def getEpisodes (db : DB) (podcastId : Nat) : List Episode :=
  sortByDesc (fun e => e.pubDate)
    (db.episodes.filter (fun e => e.podcastId == podcastId))

/-- Embeds where pubDate belowOrEqual asOfPubDate, reverse().limit(count):
records without a pubDate are absent from the pubDate index. -/
def getAllEpisodes (db : DB) (count : Nat) (asOfPubDate : Nat) : List Episode :=
  (sortByDesc (fun e => e.pubDate)
    (db.episodes.filter
      (fun e => match e.pubDate with
        | some d => decide (d ≤ asOfPubDate)
        | none => false))).take count

/-- Embeds where position aboveOrEqual 0, reverse().sortBy(lastTimeListened):
records without a position are absent from the position index, and every
stored position (a natural number) is at least 0. -/
def getEpisodesInProgress (db : DB) : List Episode :=
  sortByDesc (fun e => e.lastTimeListened)
    (db.episodes.filter (fun e => e.position.isSome))

end OfflineStorageHandler

/-- Modelled from the spec: the remote directory client (PodcastindexOrgClient)
is not among the sources; per the spec its getPodcastByFeedUrl resolves to a
record of id, title, description, link, imageUrl and an optional value block. -/
structure RemotePodcast where
  id : Nat
  title : Option String := none
  description : Option String := none
  link : Option String := none
  imageUrl : Option String := none
  value : Option Value := none

/-- Modelled from the spec: one entry of the remote getEpisodes result, with
id, title, link, description, pubDate, imageUrl, an optional enclosure and a
guid; the textual pubDate is modelled already parsed to a timestamp, matching
the new Date conversion applied at the single point of use. -/
structure RemoteEpisode where
  id : Nat
  title : Option String := none
  link : Option String := none
  description : Option String := none
  pubDate : Nat
  imageUrl : Option String := none
  enclosure : Option Enclosure := none
  guid : Option String := none
deriving DecidableEq

namespace PodcastsController

structure PodcastToAdd where
  feedUrl : String
  title : Option String := none
  description : Option String := none
  imageUrl : Option String := none
  subscribed : Bool
  podcastIndexOrgId : Option Nat := none

/-- Embeds mapPodcastIndexOrgEpisodeToStorage. The source returns a record
that omits podcastId; the placeholder 0 stored here is overridden by every
caller, and the merge during reconciliation copies only the listed keys. -/
def mapPodcastIndexOrgEpisodeToStorage (r : RemoteEpisode) : Episode :=
  { id := none
    podcastId := 0
    title := r.title
    link := r.link
    description := r.description
    pubDate := some r.pubDate
    imageUrl := r.imageUrl
    enclosure := r.enclosure
    guid := r.guid
    podcastIndexOrgId := r.id
    categories := none
    duration := none
    position := none
    lastTimeListened := none
    finished := none }

/-- Embeds the reconciliation spread of the stored episode under the mapped
remote one: exactly the keys produced by mapPodcastIndexOrgEpisodeToStorage
are overwritten, every other stored field stays. -/
def mergeRemoteEpisode (stored : Episode) (r : RemoteEpisode) : Episode :=
  { stored with
    title := r.title
    link := r.link
    description := r.description
    pubDate := some r.pubDate
    imageUrl := r.imageUrl
    enclosure := r.enclosure
    guid := r.guid
    podcastIndexOrgId := r.id }

/-- Embeds the controller addPodcast pipeline, with the two successful remote
responses and the current time passed as inputs: insert with status new,
overlay the directory metadata, bulk-insert the mapped episodes tagged with
the generated podcast id, then mark the podcast processed and stamp the fetch
time. -/
def addPodcast (db : DB) (toAdd : PodcastToAdd) (remote : RemotePodcast)
    (remoteEpisodes : List RemoteEpisode) (now : Nat) : Except String DB :=
  match OfflineStorageHandler.addPodcast db
    { feedUrl := toAdd.feedUrl
      title := toAdd.title
      description := toAdd.description
      imageUrl := toAdd.imageUrl
      subscribed := toAdd.subscribed
      podcastIndexOrgId := toAdd.podcastIndexOrgId
      status := PodcastStatus.new } with
  | Except.error e => Except.error e
  | Except.ok (db1, podcastId) =>
    let db2 := OfflineStorageHandler.updatePodcast db1
      { id := podcastId
        title := some remote.title
        description := some remote.description
        link := some remote.link
        imageUrl := some remote.imageUrl
        podcastIndexOrgId := some (some remote.id)
        value := match remote.value with
          | some v => some (some [v])
          | none => none }
    let db3 := OfflineStorageHandler.putEpisodes db2
      (remoteEpisodes.map
        (fun e => { mapPodcastIndexOrgEpisodeToStorage e with podcastId := podcastId }))
    let db4 := OfflineStorageHandler.updatePodcast db3
      { id := podcastId
        status := some PodcastStatus.processed
        podcastIndexOrgLastEpisodeFetch := some (some now) }
    Except.ok db4

def deletePodcastById (db : DB) (podcastId : Nat) : DB :=
  OfflineStorageHandler.deletePodcastById db podcastId

/-- Embeds the controller getPodcasts view: the feed URL substitutes for a
missing or empty title (an empty string is falsy in the source conditional). -/
def getPodcasts (db : DB) : List Podcast :=
  (OfflineStorageHandler.getPodcasts db).map
    (fun p =>
      { p with
        title := some (match p.title with
          | some t => if t = "" then p.feedUrl else t
          | none => p.feedUrl) })

def getPodcast (db : DB) (feedUrl : String) : Option Podcast :=
  OfflineStorageHandler.getPodcast db feedUrl

def getPodcastById (db : DB) (id : Nat) : Option Podcast :=
  OfflineStorageHandler.getPodcastById db id

/-- Embeds the controller getEpisodes: resolve the podcast by feed URL, then
read its episodes; an unknown feed URL yields the empty list. -/
def getEpisodes (db : DB) (feedUrl : String) : List Episode :=
  match OfflineStorageHandler.getPodcast db feedUrl with
  | some p => OfflineStorageHandler.getEpisodes db (p.id.getD 0)
  | none => []

/-- Embeds the findIndex lookup plus the in-place assignment of the merged
record: the first stored episode whose directory id matches is replaced. -/
def overlayFirst (r : RemoteEpisode) : List Episode → Option (List Episode)
  | [] => none
  | s :: rest =>
    if s.podcastIndexOrgId = r.id then
      some (mergeRemoteEpisode s r :: rest)
    else
      match overlayFirst r rest with
      | some l => some (s :: l)
      | none => none

/-- Embeds the body of the reconciliation forEach for one remote episode:
merge over the first match, or push a new record tagged with the podcast id. -/
def reconcileEpisode (podcastId : Nat) (stored : List Episode)
    (r : RemoteEpisode) : List Episode :=
  match overlayFirst r stored with
  | some l => l
  | none =>
    stored ++ [{ mapPodcastIndexOrgEpisodeToStorage r with podcastId := podcastId }]

def reconcileEpisodes (podcastId : Nat) (stored : List Episode)
    (remote : List RemoteEpisode) : List Episode :=
  remote.foldl (reconcileEpisode podcastId) stored

/-- Embeds one iteration of the updatePodcasts loop: a failed remote fetch
(modelled as none) skips the podcast, a successful one reconciles the remote
list into the stored episodes and writes the result back. -/
def updatePodcastsStep (fetch : String → Option (List RemoteEpisode))
    (acc : DB) (p : Podcast) : DB :=
  match fetch p.feedUrl with
  | none => acc
  | some remoteEpisodes =>
    OfflineStorageHandler.putEpisodes acc
      (reconcileEpisodes (p.id.getD 0) (getEpisodes acc p.feedUrl) remoteEpisodes)

def updatePodcastsOn (fetch : String → Option (List RemoteEpisode))
    (db : DB) (ps : List Podcast) : DB :=
  ps.foldl (updatePodcastsStep fetch) db

/-- Embeds updatePodcasts: the podcast list is snapshot once, then each entry
is refreshed in turn against the live store. -/
def updatePodcasts (db : DB)
    (fetch : String → Option (List RemoteEpisode)) : DB :=
  updatePodcastsOn fetch db (OfflineStorageHandler.getPodcasts db)

/-- Variant of one updatePodcasts iteration in which the un-awaited
putEpisodes promise may reject: a rejected write (putOk false on that feed
URL) leaves the store unchanged and the failure is observed by nobody. -/
def updatePodcastsStepFallible (fetch : String → Option (List RemoteEpisode))
    (putOk : String → Bool) (acc : DB) (p : Podcast) : DB :=
  match fetch p.feedUrl with
  | none => acc
  | some remoteEpisodes =>
    if putOk p.feedUrl then
      OfflineStorageHandler.putEpisodes acc
        (reconcileEpisodes (p.id.getD 0) (getEpisodes acc p.feedUrl) remoteEpisodes)
    else
      acc

/-- Embeds updatePodcasts with fallible, fire-and-forget episode writes. -/
def updatePodcastsFallible (db : DB)
    (fetch : String → Option (List RemoteEpisode)) (putOk : String → Bool) : DB :=
  (OfflineStorageHandler.getPodcasts db).foldl
    (updatePodcastsStepFallible fetch putOk) db

structure EpisodeWithPodcast where
  episode : Episode
  podcast : Option Podcast
deriving DecidableEq

/-- Embeds addPodcastToEpisodes: join each episode to its owning podcast by
podcastId; the source casts away a failed lookup, kept here as an option. -/
def addPodcastToEpisodes (episodes : List Episode) (podcasts : List Podcast) :
    List EpisodeWithPodcast :=
  episodes.map
    (fun e =>
      { episode := e
        podcast := podcasts.find? (fun p => p.id == some e.podcastId) })

def getAllEpisodes (db : DB) (count : Nat) (asOfPubDate : Nat) :
    List EpisodeWithPodcast :=
  addPodcastToEpisodes (OfflineStorageHandler.getAllEpisodes db count asOfPubDate)
    (OfflineStorageHandler.getPodcasts db)

def getEpisodesInProgress (db : DB) : List EpisodeWithPodcast :=
  addPodcastToEpisodes (OfflineStorageHandler.getEpisodesInProgress db)
    (OfflineStorageHandler.getPodcasts db)

/-- Embeds updateEpisodeCurrentTime: patch the position and stamp the
last-listened time with the current time. -/
def updateEpisodeCurrentTime (db : DB) (episodeId : Nat) (position : Nat)
    (now : Nat) : DB :=
  OfflineStorageHandler.updateEpisode db
    { id := episodeId
      position := some (some position)
      lastTimeListened := some (some now) }

end PodcastsController

/-- Well-formedness maintained by the store: every record carries a primary
key below the auto-increment counter of its table, and primary keys are
unique within a table. -/
def DB.WF (db : DB) : Prop :=
  (∀ p ∈ db.podcasts, p.id.isSome = true ∧ optKey p.id ≤ db.nextPodcastId) ∧
  db.podcasts.Pairwise (fun p q => p.id ≠ q.id) ∧
  (∀ e ∈ db.episodes, e.id.isSome = true ∧ optKey e.id ≤ db.nextEpisodeId) ∧
  db.episodes.Pairwise (fun e f => e.id ≠ f.id)

/-- Uniqueness of the feed URL across podcasts, the invariant backed by the
unique feedUrl index. -/
def FeedUrlsDistinct (db : DB) : Prop :=
  db.podcasts.Pairwise (fun p q => p.feedUrl ≠ q.feedUrl)

instance (db : DB) : Decidable db.WF := by
  unfold DB.WF
  infer_instance

instance (db : DB) : Decidable (FeedUrlsDistinct db) := by
  unfold FeedUrlsDistinct
  infer_instance

instance {ε α : Type} [DecidableEq ε] [DecidableEq α] : DecidableEq (Except ε α) :=
  fun a b =>
    match a, b with
    | Except.ok x, Except.ok y =>
      if h : x = y then isTrue (by rw [h]) else isFalse (by intro hh; cases hh; exact h rfl)
    | Except.error x, Except.error y =>
      if h : x = y then isTrue (by rw [h]) else isFalse (by intro hh; cases hh; exact h rfl)
    | Except.ok _, Except.error _ => isFalse (by intro hh; cases hh)
    | Except.error _, Except.ok _ => isFalse (by intro hh; cases hh)

/- Concrete data for the specified add-then-refresh scenario: the podcast at
feedUrl https://example.com/feed.xml is added while the directory lists the
episodes with directory ids 1, 2, 3; the later refresh sees ids 2, 3, 4. -/

def c1toAdd : PodcastsController.PodcastToAdd :=
  { feedUrl := "https://example.com/feed.xml", subscribed := true }

def c1remotePodcast : RemotePodcast :=
  { id := 501
    title := some "Example Podcast"
    description := some "about"
    link := some "https://example.com"
    imageUrl := some "https://example.com/cover.png" }

def c1e1 : RemoteEpisode :=
  { id := 1, title := some "ep1", pubDate := 100, guid := some "g1" }

def c1e2 : RemoteEpisode :=
  { id := 2, title := some "ep2", pubDate := 200, guid := some "g2" }

def c1e3 : RemoteEpisode :=
  { id := 3, title := some "ep3", pubDate := 300, guid := some "g3" }

def c1f2 : RemoteEpisode :=
  { id := 2, title := some "ep2 updated", description := some "d2", pubDate := 200,
    guid := some "g2" }

def c1f3 : RemoteEpisode :=
  { id := 3, title := some "ep3 updated", pubDate := 300 }

def c1f4 : RemoteEpisode :=
  { id := 4, title := some "ep4", pubDate := 400 }

def c1db1 : DB :=
  (PodcastsController.addPodcast DB.empty c1toAdd c1remotePodcast
    [c1e1, c1e2, c1e3] 50).toOption.getD DB.empty

def c1fetch : String → Option (List RemoteEpisode) :=
  fun url =>
    if url = "https://example.com/feed.xml" then some [c1f2, c1f3, c1f4] else none

def c1db2 : DB := PodcastsController.updatePodcasts c1db1 c1fetch

def c1s1 : Episode :=
  { id := some 1, podcastId := 1, title := some "ep1", pubDate := some 100,
    guid := some "g1", podcastIndexOrgId := 1 }

def c1s2 : Episode :=
  { id := some 2, podcastId := 1, title := some "ep2", pubDate := some 200,
    guid := some "g2", podcastIndexOrgId := 2 }

def c1s3 : Episode :=
  { id := some 3, podcastId := 1, title := some "ep3", pubDate := some 300,
    guid := some "g3", podcastIndexOrgId := 3 }

def c1m2 : Episode :=
  { id := some 2, podcastId := 1, title := some "ep2 updated",
    description := some "d2", pubDate := some 200, guid := some "g2",
    podcastIndexOrgId := 2 }

def c1m3 : Episode :=
  { id := some 3, podcastId := 1, title := some "ep3 updated",
    pubDate := some 300, podcastIndexOrgId := 3 }

def c1m4 : Episode :=
  { id := some 4, podcastId := 1, title := some "ep4", pubDate := some 400,
    podcastIndexOrgId := 4 }

/- Concrete data refuting reconciliation idempotence when the directory
returns duplicate episode ids at subscription time: two stored episodes end
up sharing directory id 7, and the refresh overlays a different one of them
on each run because the first overlay changes the publish date used by the
descending sort. -/

def ceX : RemoteEpisode := { id := 7, title := some "x", pubDate := 10 }

def ceY : RemoteEpisode := { id := 7, title := some "y", pubDate := 5 }

def ceR : RemoteEpisode := { id := 7, title := some "r", pubDate := 3 }

def ceToAdd : PodcastsController.PodcastToAdd :=
  { feedUrl := "https://ce.example/feed", subscribed := true }

def ceDb1 : DB :=
  (PodcastsController.addPodcast DB.empty ceToAdd { id := 9 } [ceX, ceY] 40).toOption.getD DB.empty

def ceFetch : String → Option (List RemoteEpisode) :=
  fun url => if url = "https://ce.example/feed" then some [ceR] else none

/-- The eight episode fields carried by the mapped remote payload, the exact
key set overwritten by the reconciliation merge. -/
def epMeta (e : Episode) :
    Option String × Option String × Option String × Option Nat ×
    Option String × Option Enclosure × Option String × Nat :=
  (e.title, e.link, e.description, e.pubDate, e.imageUrl, e.enclosure, e.guid,
    e.podcastIndexOrgId)

/-- The same eight fields as produced from a remote episode by
mapPodcastIndexOrgEpisodeToStorage. -/
def remoteMeta (r : RemoteEpisode) :
    Option String × Option String × Option String × Option Nat ×
    Option String × Option Enclosure × Option String × Nat :=
  (r.title, r.link, r.description, some r.pubDate, r.imageUrl, r.enclosure,
    r.guid, r.id)

/-- Everything of an episode record except its primary key. -/
def epCore (e : Episode) :
    Nat × Nat × (Option String × Option String × Option String × Option Nat ×
      Option String × Option Enclosure × Option String × Nat) ×
      Option (List String) × Option Nat × Option Nat × Option Nat × Option Bool :=
  (e.podcastId, e.podcastIndexOrgId, epMeta e, e.categories, e.duration,
    e.position, e.lastTimeListened, e.finished)

/-- Provenance of an entry of a reconciled episode list for podcast id qid,
relative to the store state the list was read from: it carries that podcast id
and is either a fresh append (no primary key) or derived from a stored episode
of the same podcast whose primary key it kept. -/
def TaggedFor (qid : Nat) (db : DB) (x : Episode) : Prop :=
  x.podcastId = qid ∧
    (x.id = none ∨ ∃ s ∈ db.episodes, s.id = x.id ∧ s.podcastId = qid)

/-- Pairwise-distinct directory-service episode ids within a list. -/
def DistinctDirids (l : List Episode) : Prop :=
  l.Pairwise (fun a b => a.podcastIndexOrgId ≠ b.podcastIndexOrgId)

instance (l : List Episode) : Decidable (DistinctDirids l) := by
  unfold DistinctDirids
  infer_instance

/-- The last entry of a remote episode list carrying a given directory id:
when the directory returns duplicate ids, the reconciliation forEach makes
the last duplicate win, so the stored metadata converges to it. -/
def lastRemote (R : List RemoteEpisode) (d : Nat) : Option RemoteEpisode :=
  R.reverse.find? (fun r => r.id == d)

/-- Fresh-key assignment performed by a run of bulkPut inserts: each record
in turn receives the next auto-increment key. -/
def assignIds : Nat → List Episode → List Episode
  | _, [] => []
  | n, b :: bs => { b with id := some n } :: assignIds (n + 1) bs

/-- Saturation of a store for one remote episode list of a podcast: every
remote id is represented among the stored episodes of the podcast, every
stored episode of the podcast whose directory id occurs remotely already
holds the metadata of the last remote occurrence of that id, and the stored
directory ids of the podcast are pairwise distinct. A saturated store is a
fixpoint of the reconciliation of R. -/
def SatDB (db : DB) (qid : Nat) (R : List RemoteEpisode) : Prop :=
  (∀ r ∈ R, ∃ x ∈ db.episodes.filter (fun e => e.podcastId == qid),
      x.podcastIndexOrgId = r.id) ∧
  (∀ x ∈ db.episodes.filter (fun e => e.podcastId == qid),
      ∀ r, lastRemote R x.podcastIndexOrgId = some r →
        epMeta x = remoteMeta r) ∧
  DistinctDirids (db.episodes.filter (fun e => e.podcastId == qid))

/-- Pointwise effect of reconciling one remote episode against a stored list
whose directory ids are distinct and contain the remote id: the (unique)
record with the matching directory id is overlaid, everything else is kept. -/
def overlayPoint (r : RemoteEpisode) (x : Episode) : Episode :=
  if x.podcastIndexOrgId = r.id then PodcastsController.mergeRemoteEpisode x r
  else x

/-- Pointwise effect of the whole forEach on such a list: each record is
overlaid with the last remote occurrence of its directory id, if any. -/
def lastRemotePoint (R : List RemoteEpisode) (x : Episode) : Episode :=
  match lastRemote R x.podcastIndexOrgId with
  | some r => PodcastsController.mergeRemoteEpisode x r
  | none => x

/- Concrete data used to instantiate the theorems that carry hypotheses. -/

def w4p1 : Podcast :=
  { id := some 1, status := PodcastStatus.processed, feedUrl := "https://a.example/feed",
    subscribed := true }

def w4p2 : Podcast :=
  { id := some 2, status := PodcastStatus.processed, feedUrl := "https://b.example/feed",
    subscribed := true }

def w4e1 : Episode :=
  { id := some 1, podcastId := 1, pubDate := some 11, podcastIndexOrgId := 21 }

def w4e2 : Episode :=
  { id := some 2, podcastId := 2, pubDate := some 12, podcastIndexOrgId := 22 }

def w4db : DB :=
  { podcasts := [w4p1, w4p2], episodes := [w4e1, w4e2],
    nextPodcastId := 3, nextEpisodeId := 3 }

def w4r : RemoteEpisode := { id := 22, title := some "fresh", pubDate := 12 }

def w4fetch : String → Option (List RemoteEpisode) :=
  fun url => if url = "https://b.example/feed" then some [w4r] else none

def w2stored : Episode :=
  { id := some 9, podcastId := 4, title := some "old title", pubDate := some 5,
    podcastIndexOrgId := 77, position := some 30, lastTimeListened := some 99,
    finished := some false, duration := some 60, categories := some ["news"] }

def w2other : Episode :=
  { id := some 10, podcastId := 4, pubDate := some 6, podcastIndexOrgId := 78 }

def w2r : RemoteEpisode :=
  { id := 77, title := some "new title", description := some "d", pubDate := 8,
    guid := some "g" }

def w2rNew : RemoteEpisode :=
  { id := 79, title := some "brand new", pubDate := 9 }

def w6toAdd : PodcastsController.PodcastToAdd :=
  { feedUrl := "https://w6.example/feed", subscribed := true }

def w6remote : RemotePodcast :=
  { id := 31, title := some "w6", link := some "https://w6.example" }

def w6db4 : DB :=
  (PodcastsController.addPodcast DB.empty w6toAdd w6remote [] 7).toOption.getD DB.empty

def w9e : Episode :=
  { id := some 1, podcastId := 3, title := some "w9", pubDate := some 44,
    podcastIndexOrgId := 55 }

def w9db : DB :=
  { podcasts := [], episodes := [w9e], nextPodcastId := 1, nextEpisodeId := 2 }

/- Helper lemmas: lists, sorting, and basic store-operation facts. -/

theorem list_map_eq_self {α : Type} {l : List α} {f : α → α}
    (h : ∀ x ∈ l, f x = x) : l.map f = l := by
  induction l with
  | nil => rfl
  | cons a t ih =>
    simp only [List.map_cons, h a (by simp)]
    rw [ih (fun x hx => h x (by simp [hx]))]

theorem mem_sortByDesc {k : Episode → Option Nat} {l : List Episode} {x : Episode} :
    x ∈ sortByDesc k l ↔ x ∈ l :=
  List.mem_insertionSort _

theorem sortByDesc_perm (k : Episode → Option Nat) (l : List Episode) :
    (sortByDesc k l).Perm l :=
  List.perm_insertionSort _ l

theorem sortByDesc_sorted (k : Episode → Option Nat) (l : List Episode) :
    (sortByDesc k l).Pairwise (descRel k) :=
  List.sorted_insertionSort _ l

theorem sortByDesc_pairwise {k : Episode → Option Nat} {l : List Episode}
    {R : Episode → Episode → Prop} (hsymm : ∀ {x y}, R x y → R y x)
    (h : l.Pairwise R) : (sortByDesc k l).Pairwise R :=
  ((sortByDesc_perm k l).pairwise_iff hsymm).mpr h

theorem filter_sub_episodes {db : DB} {p : Episode → Bool} {x : Episode}
    (h : x ∈ db.episodes.filter p) : x ∈ db.episodes :=
  (List.mem_filter.mp h).1

/- Structure-level invariance of the store operations. -/

theorem putEpisode_podcasts (db : DB) (e : Episode) :
    (OfflineStorageHandler.putEpisode db e).podcasts = db.podcasts := by
  unfold OfflineStorageHandler.putEpisode
  cases e.id <;> simp only [] <;> split <;> rfl

theorem putEpisodes_podcasts (db : DB) (l : List Episode) :
    (OfflineStorageHandler.putEpisodes db l).podcasts = db.podcasts := by
  induction l generalizing db with
  | nil => rfl
  | cons a t ih =>
    unfold OfflineStorageHandler.putEpisodes at *
    rw [List.foldl_cons, ih, putEpisode_podcasts]

theorem putEpisode_nextPodcastId (db : DB) (e : Episode) :
    (OfflineStorageHandler.putEpisode db e).nextPodcastId = db.nextPodcastId := by
  unfold OfflineStorageHandler.putEpisode
  cases e.id <;> simp only [] <;> split <;> rfl

theorem putEpisodes_nextPodcastId (db : DB) (l : List Episode) :
    (OfflineStorageHandler.putEpisodes db l).nextPodcastId = db.nextPodcastId := by
  induction l generalizing db with
  | nil => rfl
  | cons a t ih =>
    unfold OfflineStorageHandler.putEpisodes at *
    rw [List.foldl_cons, ih, putEpisode_nextPodcastId]

theorem putEpisode_nextEpisodeId_mono (db : DB) (e : Episode) :
    db.nextEpisodeId ≤ (OfflineStorageHandler.putEpisode db e).nextEpisodeId := by
  unfold OfflineStorageHandler.putEpisode
  split
  · split
    · exact Nat.le_refl _
    · exact le_sup_left
  · exact Nat.le_succ _

theorem updatePodcast_episodes (db : DB) (c : PodcastPatch) :
    (OfflineStorageHandler.updatePodcast db c).episodes = db.episodes := rfl

theorem updateEpisode_podcasts (db : DB) (c : EpisodePatch) :
    (OfflineStorageHandler.updateEpisode db c).podcasts = db.podcasts := rfl

theorem applyEpisodePatch_id (e : Episode) (c : EpisodePatch) :
    (applyEpisodePatch e c).id = e.id := rfl

theorem applyPodcastPatch_id (p : Podcast) (c : PodcastPatch) :
    (applyPodcastPatch p c).id = p.id := rfl

/- Well-formedness helpers. -/

theorem wf_episode_id {db : DB} (h : db.WF) {e : Episode} (he : e ∈ db.episodes) :
    ∃ i, e.id = some i ∧ i < db.nextEpisodeId := by
  obtain ⟨-, -, h3, -⟩ := h
  obtain ⟨hs, hb⟩ := h3 e he
  cases hid : e.id with
  | none => rw [hid] at hs; simp at hs
  | some i =>
    refine ⟨i, rfl, ?_⟩
    rw [hid] at hb
    simpa [optKey] using hb

theorem wf_podcast_id {db : DB} (h : db.WF) {p : Podcast} (hp : p ∈ db.podcasts) :
    ∃ i, p.id = some i ∧ i < db.nextPodcastId := by
  obtain ⟨h1, -, -, -⟩ := h
  obtain ⟨hs, hb⟩ := h1 p hp
  cases hid : p.id with
  | none => rw [hid] at hs; simp at hs
  | some i =>
    refine ⟨i, rfl, ?_⟩
    rw [hid] at hb
    simpa [optKey] using hb

theorem mem_unique_by_key {α β : Type} {f : α → β} {l : List α}
    (hp : l.Pairwise (fun a b => f a ≠ f b)) {x y : α}
    (hx : x ∈ l) (hy : y ∈ l) (hk : f x = f y) : x = y := by
  induction l with
  | nil => cases hx
  | cons a t ih =>
    obtain ⟨hhead, htail⟩ := List.pairwise_cons.mp hp
    cases hx with
    | head =>
      cases hy with
      | head => rfl
      | tail _ hy2 => exact absurd hk (hhead y hy2)
    | tail _ hx2 =>
      cases hy with
      | head => exact absurd hk.symm (hhead x hx2)
      | tail _ hy2 => exact ih htail hx2 hy2

theorem find?_eq_of_unique {α : Type} {p : α → Bool} {l : List α} {x : α}
    (hpx : p x = true) :
    x ∈ l → (∀ y ∈ l, p y = true → y = x) → l.find? p = some x := by
  induction l with
  | nil => intro hx _; cases hx
  | cons a t ih =>
    intro hx huniq
    by_cases hpa : p a = true
    · have hax : a = x := huniq a (by simp) hpa
      subst hax
      simp [List.find?_cons, hpa]
    · have hpa2 : p a = false := by simpa using hpa
      rw [List.find?_cons_of_neg _ hpa]
      cases hx with
      | head => rw [hpx] at hpa2; cases hpa2
      | tail _ hx2 => exact ih hx2 (fun y hy hpy => huniq y (by simp [hy]) hpy)

theorem getPodcast_self {db : DB} (hurl : FeedUrlsDistinct db) {q : Podcast}
    (hq : q ∈ db.podcasts) :
    OfflineStorageHandler.getPodcast db q.feedUrl = some q := by
  unfold OfflineStorageHandler.getPodcast
  refine find?_eq_of_unique (by simp) hq ?_
  intro y hy hpy
  exact mem_unique_by_key hurl hy hq (by simpa using hpy)

theorem putEpisode_WF {db : DB} (e : Episode) (h : db.WF) :
    (OfflineStorageHandler.putEpisode db e).WF := by
  obtain ⟨hp, hpd, he, hed⟩ := h
  unfold OfflineStorageHandler.putEpisode
  cases heid : e.id with
  | some i =>
    by_cases hany : (db.episodes.any fun s => s.id == some i) = true
    · simp only [hany, if_true]
      refine ⟨hp, hpd, ?_, ?_⟩
      · intro x hx
        obtain ⟨s, hs, rfl⟩ := List.mem_map.mp hx
        by_cases hsi : s.id = some i
        · simp only [hsi, if_true]
          have := he s hs
          rw [heid, ← hsi]
          exact this
        · simp only [hsi, if_false]
          exact he s hs
      · have hids : ∀ s ∈ db.episodes, (if s.id = some i then e else s).id = s.id := by
          intro s hs
          by_cases hsi : s.id = some i
          · simp [hsi, heid]
          · simp [hsi]
        refine List.pairwise_map.mpr (List.Pairwise.imp_of_mem ?_ hed)
        intro a b ha hb hab
        rw [hids a ha, hids b hb]
        exact hab
    · dsimp only
      rw [if_neg hany]
      refine ⟨hp, hpd, ?_, ?_⟩
      · intro x hx
        rcases List.mem_append.mp hx with hx | hx
        · obtain ⟨hs, hb⟩ := he x hx
          exact ⟨hs, le_trans hb le_sup_left⟩
        · simp only [List.mem_singleton] at hx
          subst hx
          refine ⟨by simp [heid], ?_⟩
          rw [heid]
          simpa [optKey] using le_sup_right
      · rw [List.pairwise_append]
        refine ⟨hed, by simp, ?_⟩
        intro a ha b hb
        simp only [List.mem_singleton] at hb
        subst hb
        rw [heid]
        intro hai
        rw [List.any_eq_true] at hany
        exact hany ⟨a, ha, by simp [hai]⟩
  | none =>
    refine ⟨hp, hpd, ?_, ?_⟩
    · intro x hx
      rcases List.mem_append.mp hx with hx | hx
      · obtain ⟨hs, hb⟩ := he x hx
        exact ⟨hs, le_trans hb (Nat.le_succ _)⟩
      · simp only [List.mem_singleton] at hx
        subst hx
        exact ⟨by simp, by simp [optKey]⟩
    · rw [List.pairwise_append]
      refine ⟨hed, by simp, ?_⟩
      intro a ha b hb
      simp only [List.mem_singleton] at hb
      subst hb
      obtain ⟨hs, hb⟩ := he a ha
      cases haid : a.id with
      | none => simp
      | some j =>
        rw [haid] at hb
        simp only [optKey] at hb
        simp only [ne_eq, Option.some.injEq]
        omega

theorem putEpisodes_WF {db : DB} (l : List Episode) (h : db.WF) :
    (OfflineStorageHandler.putEpisodes db l).WF := by
  induction l generalizing db with
  | nil => exact h
  | cons a t ih =>
    unfold OfflineStorageHandler.putEpisodes at *
    rw [List.foldl_cons]
    exact ih (putEpisode_WF a h)

/- Merge and overlay lemmas. -/

theorem mergeRemoteEpisode_meta (s : Episode) (r : RemoteEpisode) :
    epMeta (PodcastsController.mergeRemoteEpisode s r) = remoteMeta r := rfl

theorem mergeRemoteEpisode_id (s : Episode) (r : RemoteEpisode) :
    (PodcastsController.mergeRemoteEpisode s r).id = s.id := rfl

theorem mergeRemoteEpisode_podcastId (s : Episode) (r : RemoteEpisode) :
    (PodcastsController.mergeRemoteEpisode s r).podcastId = s.podcastId := rfl

theorem mergeRemoteEpisode_dirid (s : Episode) (r : RemoteEpisode) :
    (PodcastsController.mergeRemoteEpisode s r).podcastIndexOrgId = r.id := rfl

theorem mergeRemoteEpisode_fix {s : Episode} {r : RemoteEpisode}
    (h : epMeta s = remoteMeta r) :
    PodcastsController.mergeRemoteEpisode s r = s := by
  cases s with
  | mk id podcastId title link description imageUrl categories pubDate enclosure
      duration guid podcastIndexOrgId position lastTimeListened finished =>
    simp only [epMeta, remoteMeta, Prod.mk.injEq] at h
    obtain ⟨h1, h2, h3, h4, h5, h6, h7, h8⟩ := h
    subst h1; subst h2; subst h3; subst h4; subst h5; subst h6; subst h7; subst h8
    rfl

theorem overlayFirst_none_iff {r : RemoteEpisode} {l : List Episode} :
    PodcastsController.overlayFirst r l = none ↔
      ∀ y ∈ l, y.podcastIndexOrgId ≠ r.id := by
  induction l with
  | nil => simp [PodcastsController.overlayFirst]
  | cons a t ih =>
    by_cases ha : a.podcastIndexOrgId = r.id
    · simp [PodcastsController.overlayFirst, ha]
    · simp only [PodcastsController.overlayFirst, ha, if_false]
      cases hrec : PodcastsController.overlayFirst r t with
      | some l2 =>
        simp only []
        constructor
        · intro hc; cases hc
        · intro hall
          rw [ih.mpr (fun y hy => hall y (by simp [hy]))] at hrec
          cases hrec
      | none =>
        simp only []
        constructor
        · intro _ y hy hyid
          rcases List.mem_cons.mp hy with rfl | hy2
          · exact ha hyid
          · exact (ih.mp hrec) y hy2 hyid
        · intro _; trivial

theorem overlayFirst_some_decomp {r : RemoteEpisode} {l l' : List Episode}
    (h : PodcastsController.overlayFirst r l = some l') :
    ∃ l₁ s l₂, l = l₁ ++ s :: l₂ ∧ (∀ y ∈ l₁, y.podcastIndexOrgId ≠ r.id) ∧
      s.podcastIndexOrgId = r.id ∧
      l' = l₁ ++ PodcastsController.mergeRemoteEpisode s r :: l₂ := by
  induction l generalizing l' with
  | nil => simp [PodcastsController.overlayFirst] at h
  | cons a t ih =>
    by_cases ha : a.podcastIndexOrgId = r.id
    · simp only [PodcastsController.overlayFirst, ha, if_true,
        Option.some.injEq] at h
      exact ⟨[], a, t, by simp, by simp, ha, by simp [h.symm]⟩
    · simp only [PodcastsController.overlayFirst, ha, if_false] at h
      cases hrec : PodcastsController.overlayFirst r t with
      | some l2 =>
        rw [hrec] at h
        simp only [Option.some.injEq] at h
        obtain ⟨l₁, s, l₂, hteq, hl₁, hs, hl2⟩ := ih hrec
        refine ⟨a :: l₁, s, l₂, by simp [hteq], ?_, hs, by simp [← h, hl2]⟩
        intro y hy
        rcases List.mem_cons.mp hy with rfl | hy2
        · exact ha
        · exact hl₁ y hy2
      | none =>
        rw [hrec] at h
        cases h

theorem overlayFirst_app_match {r : RemoteEpisode} {l₁ l₂ : List Episode}
    {s : Episode} (h1 : ∀ y ∈ l₁, y.podcastIndexOrgId ≠ r.id)
    (hs : s.podcastIndexOrgId = r.id) :
    PodcastsController.overlayFirst r (l₁ ++ s :: l₂) =
      some (l₁ ++ PodcastsController.mergeRemoteEpisode s r :: l₂) := by
  induction l₁ with
  | nil => simp [PodcastsController.overlayFirst, hs]
  | cons a t ih =>
    have ha : a.podcastIndexOrgId ≠ r.id := h1 a (by simp)
    simp only [List.cons_append, PodcastsController.overlayFirst, ha, if_false,
      List.append_eq]
    rw [ih (fun y hy => h1 y (by simp [hy]))]

theorem overlayFirst_fix {r : RemoteEpisode} {l : List Episode}
    (hex : ∃ x ∈ l, x.podcastIndexOrgId = r.id)
    (hfix : ∀ x ∈ l, x.podcastIndexOrgId = r.id →
      PodcastsController.mergeRemoteEpisode x r = x) :
    PodcastsController.overlayFirst r l = some l := by
  induction l with
  | nil => simp at hex
  | cons a t ih =>
    by_cases ha : a.podcastIndexOrgId = r.id
    · simp only [PodcastsController.overlayFirst, ha, if_true]
      rw [hfix a (by simp) ha]
    · simp only [PodcastsController.overlayFirst, ha, if_false]
      obtain ⟨x, hx, hxid⟩ := hex
      rcases List.mem_cons.mp hx with rfl | hx2
      · exact absurd hxid ha
      · rw [ih ⟨x, hx2, hxid⟩ (fun y hy hyid => hfix y (by simp [hy]) hyid)]

theorem reconcileEpisodes_fix {qid : Nat} {l : List Episode}
    {R : List RemoteEpisode}
    (h : ∀ r ∈ R, (∃ x ∈ l, x.podcastIndexOrgId = r.id) ∧
      (∀ x ∈ l, x.podcastIndexOrgId = r.id →
        PodcastsController.mergeRemoteEpisode x r = x)) :
    PodcastsController.reconcileEpisodes qid l R = l := by
  induction R with
  | nil => rfl
  | cons r R' ih =>
    unfold PodcastsController.reconcileEpisodes at *
    rw [List.foldl_cons]
    have hstep : PodcastsController.reconcileEpisode qid l r = l := by
      unfold PodcastsController.reconcileEpisode
      rw [overlayFirst_fix (h r (by simp)).1 (h r (by simp)).2]
    rw [hstep]
    exact ih (fun r' hr' => h r' (by simp [hr']))

/- Frame lemmas: writes for one podcast leave the episodes of another alone. -/

theorem filter_map_eq_of {α : Type} {l : List α} {f : α → α} {p : α → Bool}
    (h : ∀ s ∈ l, f s = s ∨ (p s = false ∧ p (f s) = false)) :
    (l.map f).filter p = l.filter p := by
  induction l with
  | nil => rfl
  | cons a t ih =>
    have ht := ih (fun s hs => h s (by simp [hs]))
    rcases h a (by simp) with hfa | ⟨hpa, hpfa⟩
    · simp only [List.map_cons, List.filter_cons, hfa, ht]
    · simp [List.filter_cons, hpa, hpfa, ht]

theorem putEpisode_filter_frame {db : DB} {e : Episode} {pid : Nat}
    (he : (e.podcastId == pid) = false)
    (hs : ∀ s ∈ db.episodes, s.id = e.id → (s.podcastId == pid) = false) :
    (OfflineStorageHandler.putEpisode db e).episodes.filter
        (fun x => x.podcastId == pid) =
      db.episodes.filter (fun x => x.podcastId == pid) := by
  unfold OfflineStorageHandler.putEpisode
  cases heid : e.id with
  | some i =>
    dsimp only
    by_cases hany : (db.episodes.any fun s => s.id == some i) = true
    · rw [if_pos hany]
      apply filter_map_eq_of
      intro s hsl
      by_cases hsi : s.id = some i
      · exact Or.inr ⟨hs s hsl (by rw [hsi, heid]), by simp [hsi, he]⟩
      · exact Or.inl (by simp [hsi])
    · rw [if_neg hany]
      dsimp only
      rw [List.filter_append]
      simp [he]
  | none =>
    dsimp only
    rw [List.filter_append]
    simp [he]

theorem map_if_id_self {l : List Episode} {x : Episode} {i : Nat}
    (hpd : l.Pairwise (fun e f => e.id ≠ f.id)) (hx : x ∈ l)
    (hxi : x.id = some i) :
    l.map (fun s => if s.id = some i then x else s) = l := by
  apply list_map_eq_self
  intro s hsl
  by_cases hsi : s.id = some i
  · have hsx : s = x := mem_unique_by_key hpd hsl hx (by rw [hsi, hxi])
    simp [hsi, hsx]
  · simp [hsi]

theorem putEpisode_self {db : DB} {x : Episode} (hwf : db.WF)
    (hx : x ∈ db.episodes) :
    OfflineStorageHandler.putEpisode db x = db := by
  obtain ⟨i, hxi, -⟩ := wf_episode_id hwf hx
  have hany : (db.episodes.any fun s => s.id == some i) = true :=
    List.any_eq_true.mpr ⟨x, hx, by simp [hxi]⟩
  unfold OfflineStorageHandler.putEpisode
  rw [hxi]
  dsimp only
  rw [if_pos hany, map_if_id_self hwf.2.2.2 hx hxi]

theorem putEpisodes_self {db : DB} {l : List Episode} (hwf : db.WF)
    (h : ∀ x ∈ l, x ∈ db.episodes) :
    OfflineStorageHandler.putEpisodes db l = db := by
  induction l with
  | nil => rfl
  | cons a t ih =>
    unfold OfflineStorageHandler.putEpisodes at *
    rw [List.foldl_cons, putEpisode_self hwf (h a (by simp))]
    exact ih (fun x hx => h x (by simp [hx]))

theorem reconcileEpisode_tagged {qid : Nat} {db : DB} {l : List Episode}
    {r : RemoteEpisode} (hl : ∀ x ∈ l, TaggedFor qid db x) :
    ∀ x ∈ PodcastsController.reconcileEpisode qid l r, TaggedFor qid db x := by
  intro x hx
  unfold PodcastsController.reconcileEpisode at hx
  cases ho : PodcastsController.overlayFirst r l with
  | some l' =>
    rw [ho] at hx
    dsimp only at hx
    obtain ⟨l₁, s, l₂, hleq, -, -, hl'⟩ := overlayFirst_some_decomp ho
    subst hl'
    rcases List.mem_append.mp hx with h1 | h2
    · exact hl x (by rw [hleq]; exact List.mem_append.mpr (Or.inl h1))
    · rcases List.mem_cons.mp h2 with rfl | h3
      · have hsT : TaggedFor qid db s :=
          hl s (by rw [hleq]; exact List.mem_append.mpr (Or.inr (by simp)))
        exact ⟨by rw [mergeRemoteEpisode_podcastId]; exact hsT.1,
          by rw [mergeRemoteEpisode_id]; exact hsT.2⟩
      · exact hl x (by rw [hleq]; exact List.mem_append.mpr (Or.inr (by simp [h3])))
  | none =>
    rw [ho] at hx
    dsimp only at hx
    rcases List.mem_append.mp hx with h1 | h2
    · exact hl x h1
    · rcases List.mem_cons.mp h2 with rfl | h3
      · exact ⟨rfl, Or.inl rfl⟩
      · cases h3

theorem reconcileEpisodes_tagged {qid : Nat} {db : DB} {l : List Episode}
    {R : List RemoteEpisode} (hl : ∀ x ∈ l, TaggedFor qid db x) :
    ∀ x ∈ PodcastsController.reconcileEpisodes qid l R, TaggedFor qid db x := by
  induction R generalizing l with
  | nil => exact hl
  | cons r R' ih =>
    unfold PodcastsController.reconcileEpisodes at *
    rw [List.foldl_cons]
    exact ih (reconcileEpisode_tagged hl)

theorem putEpisodes_filter_frame {acc : DB} {qid pid : Nat} (hne : qid ≠ pid)
    (hacc : acc.WF) (L : List Episode) :
    ∀ cur : DB, cur.WF →
      cur.episodes.filter (fun x => x.podcastId == pid) =
        acc.episodes.filter (fun x => x.podcastId == pid) →
      (∀ x ∈ L, TaggedFor qid acc x) →
      (OfflineStorageHandler.putEpisodes cur L).episodes.filter
          (fun x => x.podcastId == pid) =
        acc.episodes.filter (fun x => x.podcastId == pid) := by
  induction L with
  | nil => intro cur _ hfil _; exact hfil
  | cons e t ih =>
    intro cur hwfcur hfil hL
    unfold OfflineStorageHandler.putEpisodes at *
    rw [List.foldl_cons]
    have hTe := hL e (by simp)
    have he : (e.podcastId == pid) = false := by simp [hTe.1, hne]
    have hs : ∀ s ∈ cur.episodes, s.id = e.id → (s.podcastId == pid) = false := by
      intro s hsmem hside
      by_contra hc
      have hspid : s.podcastId = pid := by simpa using hc
      have hsfil : s ∈ cur.episodes.filter (fun x => x.podcastId == pid) :=
        List.mem_filter.mpr ⟨hsmem, by simp [hspid]⟩
      rw [hfil] at hsfil
      have hsacc : s ∈ acc.episodes := (List.mem_filter.mp hsfil).1
      rcases hTe.2 with hnone | ⟨s0, hs0mem, hs0id, hs0pid⟩
      · rw [hnone] at hside
        have hsome := (hwfcur.2.2.1 s hsmem).1
        rw [hside] at hsome
        simp at hsome
      · have hsid : s.id = s0.id := by rw [hside, ← hs0id]
        have hss0 : s = s0 := mem_unique_by_key hacc.2.2.2 hsacc hs0mem hsid
        rw [hss0] at hspid
        exact hne (hs0pid.symm.trans hspid)
    refine ih (OfflineStorageHandler.putEpisode cur e) (putEpisode_WF e hwfcur)
      ?_ (fun x hx => hL x (by simp [hx]))
    rw [putEpisode_filter_frame he hs]
    exact hfil

theorem mem_storedEpisodes {db : DB} {qid : Nat} {x : Episode}
    (hx : x ∈ OfflineStorageHandler.getEpisodes db qid) :
    x ∈ db.episodes ∧ x.podcastId = qid := by
  unfold OfflineStorageHandler.getEpisodes at hx
  rw [mem_sortByDesc] at hx
  obtain ⟨hmem, hq⟩ := List.mem_filter.mp hx
  exact ⟨hmem, by simpa using hq⟩

theorem controller_getEpisodes_eq {db : DB} {q : Podcast}
    (hurl : FeedUrlsDistinct db) (hq : q ∈ db.podcasts) :
    PodcastsController.getEpisodes db q.feedUrl =
      OfflineStorageHandler.getEpisodes db (q.id.getD 0) := by
  unfold PodcastsController.getEpisodes
  rw [getPodcast_self hurl hq]

theorem updatePodcastsStep_podcasts (fetch : String → Option (List RemoteEpisode))
    (acc : DB) (q : Podcast) :
    (PodcastsController.updatePodcastsStep fetch acc q).podcasts = acc.podcasts := by
  unfold PodcastsController.updatePodcastsStep
  cases fetch q.feedUrl with
  | none => rfl
  | some R => exact putEpisodes_podcasts _ _

theorem updatePodcastsStep_WF {fetch : String → Option (List RemoteEpisode)}
    {acc : DB} (q : Podcast) (hwf : acc.WF) :
    (PodcastsController.updatePodcastsStep fetch acc q).WF := by
  unfold PodcastsController.updatePodcastsStep
  cases fetch q.feedUrl with
  | none => exact hwf
  | some R => exact putEpisodes_WF _ hwf

theorem updatePodcastsStep_filter_frame {fetch : String → Option (List RemoteEpisode)}
    {acc : DB} {q : Podcast} {pid : Nat}
    (hwf : acc.WF) (hurl : FeedUrlsDistinct acc) (hq : q ∈ acc.podcasts)
    (hne : q.id.getD 0 ≠ pid) :
    (PodcastsController.updatePodcastsStep fetch acc q).episodes.filter
        (fun x => x.podcastId == pid) =
      acc.episodes.filter (fun x => x.podcastId == pid) := by
  unfold PodcastsController.updatePodcastsStep
  cases fetch q.feedUrl with
  | none => rfl
  | some R =>
    dsimp only
    refine putEpisodes_filter_frame hne hwf _ acc hwf rfl ?_
    apply reconcileEpisodes_tagged
    intro x hx
    rw [controller_getEpisodes_eq hurl hq] at hx
    obtain ⟨hmem, hpid⟩ := mem_storedEpisodes hx
    exact ⟨hpid, Or.inr ⟨x, hmem, rfl, hpid⟩⟩

theorem updatePodcastsOn_podcasts (fetch : String → Option (List RemoteEpisode))
    (ps : List Podcast) :
    ∀ db : DB, (PodcastsController.updatePodcastsOn fetch db ps).podcasts =
      db.podcasts := by
  induction ps with
  | nil => intro db; rfl
  | cons q t ih =>
    intro db
    unfold PodcastsController.updatePodcastsOn at *
    rw [List.foldl_cons, ih, updatePodcastsStep_podcasts]

theorem updatePodcastsOn_WF {fetch : String → Option (List RemoteEpisode)}
    (ps : List Podcast) :
    ∀ db : DB, db.WF → (PodcastsController.updatePodcastsOn fetch db ps).WF := by
  induction ps with
  | nil => intro db h; exact h
  | cons q t ih =>
    intro db h
    unfold PodcastsController.updatePodcastsOn at *
    rw [List.foldl_cons]
    exact ih _ (updatePodcastsStep_WF q h)

theorem updatePodcastsOn_skip_failed (fetch : String → Option (List RemoteEpisode))
    (ps : List Podcast) :
    ∀ db : DB, PodcastsController.updatePodcastsOn fetch db ps =
      PodcastsController.updatePodcastsOn fetch db
        (ps.filter (fun q => (fetch q.feedUrl).isSome)) := by
  induction ps with
  | nil => intro db; rfl
  | cons q t ih =>
    intro db
    unfold PodcastsController.updatePodcastsOn at *
    rw [List.filter_cons]
    cases hf : fetch q.feedUrl with
    | none =>
      have hstep : PodcastsController.updatePodcastsStep fetch db q = db := by
        unfold PodcastsController.updatePodcastsStep
        rw [hf]
      simp only [hf, Option.isSome_none, Bool.false_eq_true, if_false,
        List.foldl_cons, hstep]
      exact ih db
    | some R =>
      simp only [hf, Option.isSome_some, if_true, List.foldl_cons]
      exact ih _

theorem feedUrlsDistinct_of_eq {acc db : DB} (h : acc.podcasts = db.podcasts)
    (hurl : FeedUrlsDistinct db) : FeedUrlsDistinct acc := by
  unfold FeedUrlsDistinct at *
  rw [h]
  exact hurl

theorem updatePodcastsOn_filter_frame (fetch : String → Option (List RemoteEpisode))
    {db : DB} (pid : Nat) (hurl : FeedUrlsDistinct db) (ps : List Podcast) :
    ∀ acc : DB, acc.WF → acc.podcasts = db.podcasts →
      (∀ q ∈ ps, q ∈ db.podcasts) →
      (∀ q ∈ ps, fetch q.feedUrl = none ∨ q.id.getD 0 ≠ pid) →
      (PodcastsController.updatePodcastsOn fetch acc ps).episodes.filter
          (fun x => x.podcastId == pid) =
        acc.episodes.filter (fun x => x.podcastId == pid) := by
  induction ps with
  | nil => intro acc _ _ _ _; rfl
  | cons q t ih
    =>
    intro acc hwf hpods hmem hcase
    unfold PodcastsController.updatePodcastsOn at *
    rw [List.foldl_cons]
    have hnext := ih (PodcastsController.updatePodcastsStep fetch acc q)
      (updatePodcastsStep_WF q hwf)
      (by rw [updatePodcastsStep_podcasts, hpods])
      (fun x hx => hmem x (by simp [hx]))
      (fun x hx => hcase x (by simp [hx]))
    rw [hnext]
    rcases hcase q (by simp) with hf | hne
    · have hstep : PodcastsController.updatePodcastsStep fetch acc q = acc := by
        unfold PodcastsController.updatePodcastsStep
        rw [hf]
      rw [hstep]
    · exact updatePodcastsStep_filter_frame hwf
        (feedUrlsDistinct_of_eq hpods hurl)
        (by rw [hpods]; exact hmem q (by simp)) hne

/- Membership lemmas for bulk puts, phrased through the primary-key-free core
of a record. -/

theorem epCore_set_id (e : Episode) (v : Option Nat) :
    epCore { e with id := v } = epCore e := rfl

theorem mem_putEpisode_preserved {cur : DB} {x0 : Episode} {i0 : Nat}
    {e : Episode} (hx0 : x0 ∈ cur.episodes) (hx0id : x0.id = some i0)
    (hne : ∀ j, e.id = some j → j ≠ i0) :
    x0 ∈ (OfflineStorageHandler.putEpisode cur e).episodes := by
  unfold OfflineStorageHandler.putEpisode
  cases heid : e.id with
  | some j =>
    have hji : j ≠ i0 := hne j heid
    dsimp only
    by_cases hany : (cur.episodes.any fun s => s.id == some j) = true
    · rw [if_pos hany]
      refine List.mem_map.mpr ⟨x0, hx0, ?_⟩
      rw [if_neg]
      rw [hx0id]
      simp only [ne_eq, Option.some.injEq]
      omega
    · rw [if_neg hany]
      exact List.mem_append.mpr (Or.inl hx0)
  | none =>
    dsimp only
    exact List.mem_append.mpr (Or.inl hx0)

theorem mem_putEpisodes_preserved {x0 : Episode} {i0 : Nat}
    (L : List Episode) :
    ∀ cur : DB, x0 ∈ cur.episodes → x0.id = some i0 →
      (∀ z ∈ L, ∀ j, z.id = some j → j ≠ i0) →
      x0 ∈ (OfflineStorageHandler.putEpisodes cur L).episodes := by
  induction L with
  | nil => intro cur hx0 _ _; exact hx0
  | cons z t ih =>
    intro cur hx0 hx0id hne
    unfold OfflineStorageHandler.putEpisodes at *
    rw [List.foldl_cons]
    exact ih _ (mem_putEpisode_preserved hx0 hx0id (hne z (by simp))) hx0id
      (fun w hw => hne w (by simp [hw]))

theorem putEpisode_core_exists (cur : DB) (e : Episode) :
    ∃ x' ∈ (OfflineStorageHandler.putEpisode cur e).episodes,
      epCore x' = epCore e ∧ ∃ i0, x'.id = some i0 ∧
        (e.id = some i0 ∨ (e.id = none ∧ i0 = cur.nextEpisodeId)) := by
  unfold OfflineStorageHandler.putEpisode
  cases heid : e.id with
  | some i =>
    dsimp only
    by_cases hany : (cur.episodes.any fun s => s.id == some i) = true
    · rw [if_pos hany]
      obtain ⟨s, hsmem, hsi⟩ := List.any_eq_true.mp hany
      have hsid : s.id = some i := by simpa using hsi
      refine ⟨e, List.mem_map.mpr ⟨s, hsmem, by rw [if_pos hsid]⟩, rfl,
        i, heid, Or.inl rfl⟩
    · rw [if_neg hany]
      exact ⟨e, List.mem_append.mpr (Or.inr (by simp)), rfl, i, heid, Or.inl rfl⟩
  | none =>
    dsimp only
    exact ⟨{ e with id := some cur.nextEpisodeId },
      List.mem_append.mpr (Or.inr (by simp)), epCore_set_id e _,
      cur.nextEpisodeId, rfl, Or.inr ⟨rfl, rfl⟩⟩

theorem putEpisodes_core_exists {x : Episode} (L : List Episode) :
    ∀ acc : DB, x ∈ L →
      L.Pairwise (fun a b => ∀ j, a.id = some j → b.id ≠ some j) →
      (∀ z ∈ L, ∀ j, z.id = some j → j < acc.nextEpisodeId) →
      ∃ x' ∈ (OfflineStorageHandler.putEpisodes acc L).episodes,
        epCore x' = epCore x := by
  induction L with
  | nil => intro acc hx _ _; cases hx
  | cons z t ih =>
    intro acc hx hids hbound
    unfold OfflineStorageHandler.putEpisodes at *
    rw [List.foldl_cons]
    rcases List.mem_cons.mp hx with rfl | hxt
    · obtain ⟨x', hx'mem, hx'core, i0, hx'id, hcase⟩ := putEpisode_core_exists acc x
      refine ⟨x', ?_, hx'core⟩
      refine mem_putEpisodes_preserved t _ hx'mem hx'id ?_
      intro w hw j hwj
      rcases hcase with hxi | ⟨hxnone, hi0⟩
      · have := (List.pairwise_cons.mp hids).1 w hw i0 hxi
        intro hji
        rw [hji] at hwj
        exact this hwj
      · have := hbound w (by simp [hw]) j hwj
        omega
    · refine ih _ hxt (List.pairwise_cons.mp hids).2 ?_
      intro w hw j hwj
      exact lt_of_lt_of_le (hbound w (by simp [hw]) j hwj)
        (putEpisode_nextEpisodeId_mono acc z)

theorem putEpisode_core_sub {cur : DB} {e : Episode} :
    ∀ x' ∈ (OfflineStorageHandler.putEpisode cur e).episodes,
      epCore x' = epCore e ∨
        (x' ∈ cur.episodes ∧ ∀ j, e.id = some j → x'.id ≠ some j) := by
  intro x' hx'
  unfold OfflineStorageHandler.putEpisode at hx'
  cases heid : e.id with
  | some i =>
    rw [heid] at hx'
    dsimp only at hx'
    by_cases hany : (cur.episodes.any fun s => s.id == some i) = true
    · rw [if_pos hany] at hx'
      obtain ⟨s, hsmem, hsx⟩ := List.mem_map.mp hx'
      by_cases hsi : s.id = some i
      · rw [if_pos hsi] at hsx
        exact Or.inl (by rw [← hsx])
      · rw [if_neg hsi] at hsx
        refine Or.inr ⟨by rw [← hsx]; exact hsmem, ?_⟩
        intro j hej
        cases hej
        rw [← hsx]
        exact hsi
    · rw [if_neg hany] at hx'
      rcases List.mem_append.mp hx' with hmem | hsing
      · refine Or.inr ⟨hmem, ?_⟩
        intro j hej
        cases hej
        intro hxid
        rw [List.any_eq_true] at hany
        exact hany ⟨x', hmem, by simp [hxid]⟩
      · simp only [List.mem_singleton] at hsing
        subst hsing
        exact Or.inl rfl
  | none =>
    rw [heid] at hx'
    dsimp only at hx'
    rcases List.mem_append.mp hx' with hmem | hsing
    · exact Or.inr ⟨hmem, by intro j hej; cases hej⟩
    · simp only [List.mem_singleton] at hsing
      subst hsing
      exact Or.inl (epCore_set_id e _)

theorem putEpisodes_core_sub (L : List Episode) :
    ∀ acc : DB, ∀ x' ∈ (OfflineStorageHandler.putEpisodes acc L).episodes,
      (∃ x ∈ L, epCore x' = epCore x) ∨
        (x' ∈ acc.episodes ∧ ∀ z ∈ L, ∀ j, z.id = some j → x'.id ≠ some j) := by
  induction L with
  | nil => intro acc x' hx'; exact Or.inr ⟨hx', by simp⟩
  | cons z t ih =>
    intro acc x' hx'
    unfold OfflineStorageHandler.putEpisodes at *
    rw [List.foldl_cons] at hx'
    rcases ih _ x' hx' with ⟨x, hxt, hcore⟩ | ⟨hmem, hcond⟩
    · exact Or.inl ⟨x, by simp [hxt], hcore⟩
    · rcases putEpisode_core_sub x' hmem with hcore | ⟨hmem2, hcond2⟩
      · exact Or.inl ⟨z, by simp, hcore⟩
      · refine Or.inr ⟨hmem2, ?_⟩
        intro w hw j hwj
        rcases List.mem_cons.mp hw with rfl | hwt
        · exact hcond2 j hwj
        · exact hcond w hwt j hwj

/- Saturation: after one reconciliation pass, every remote episode is
represented exactly once and its metadata is already in place, which makes the
next pass a fixpoint. -/

theorem reconcileEpisode_preserves_sat (qid : Nat) {l : List Episode}
    {r' r : RemoteEpisode} (hne : r'.id ≠ r.id)
    (hex : ∃ x ∈ l, x.podcastIndexOrgId = r.id)
    (hall : ∀ x ∈ l, x.podcastIndexOrgId = r.id → epMeta x = remoteMeta r) :
    (∃ x ∈ PodcastsController.reconcileEpisode qid l r',
        x.podcastIndexOrgId = r.id) ∧
    (∀ x ∈ PodcastsController.reconcileEpisode qid l r',
        x.podcastIndexOrgId = r.id → epMeta x = remoteMeta r) := by
  unfold PodcastsController.reconcileEpisode
  cases ho : PodcastsController.overlayFirst r' l with
  | some l' =>
    dsimp only
    obtain ⟨l₁, s, l₂, hleq, hl₁, hsid, hl'⟩ := overlayFirst_some_decomp ho
    subst hl'
    subst hleq
    constructor
    · obtain ⟨x, hx, hxid⟩ := hex
      rcases List.mem_append.mp hx with h1 | h2
      · exact ⟨x, List.mem_append.mpr (Or.inl h1), hxid⟩
      · rcases List.mem_cons.mp h2 with rfl | h3
        · rw [hsid] at hxid
          exact absurd hxid hne
        · exact ⟨x, List.mem_append.mpr (Or.inr (by simp [h3])), hxid⟩
    · intro x hx hxid
      rcases List.mem_append.mp hx with h1 | h2
      · exact hall x (List.mem_append.mpr (Or.inl h1)) hxid
      · rcases List.mem_cons.mp h2 with rfl | h3
        · rw [mergeRemoteEpisode_dirid] at hxid
          exact absurd hxid hne
        · exact hall x (List.mem_append.mpr (Or.inr (by simp [h3]))) hxid
  | none =>
    dsimp only
    constructor
    · obtain ⟨x, hx, hxid⟩ := hex
      exact ⟨x, List.mem_append.mpr (Or.inl hx), hxid⟩
    · intro x hx hxid
      rcases List.mem_append.mp hx with h1 | h2
      · exact hall x h1 hxid
      · rcases List.mem_cons.mp h2 with rfl | h3
        · exact absurd hxid hne
        · cases h3

theorem distinctDirids_map {l : List Episode} :
    DistinctDirids l ↔
      (l.map (fun e => e.podcastIndexOrgId)).Pairwise (fun a b => a ≠ b) := by
  unfold DistinctDirids
  rw [List.pairwise_map]

theorem reconcileEpisode_preserves_distinct (qid : Nat) {l : List Episode}
    (r : RemoteEpisode) (hd : DistinctDirids l) :
    DistinctDirids (PodcastsController.reconcileEpisode qid l r) := by
  unfold PodcastsController.reconcileEpisode
  cases ho : PodcastsController.overlayFirst r l with
  | some l' =>
    dsimp only
    obtain ⟨l₁, s, l₂, hleq, hl₁, hsid, hl'⟩ := overlayFirst_some_decomp ho
    subst hl'
    subst hleq
    rw [distinctDirids_map] at hd ⊢
    have hmapeq :
        (l₁ ++ PodcastsController.mergeRemoteEpisode s r :: l₂).map
          (fun e => e.podcastIndexOrgId) =
        (l₁ ++ s :: l₂).map (fun e => e.podcastIndexOrgId) := by
      simp [mergeRemoteEpisode_dirid, hsid]
    rw [hmapeq]
    exact hd
  | none =>
    dsimp only
    rw [distinctDirids_map] at hd ⊢
    rw [List.map_append, List.pairwise_append]
    refine ⟨hd, by simp, ?_⟩
    intro a ha b hb
    simp only [List.map_cons, List.map_nil, List.mem_singleton] at hb
    subst hb
    obtain ⟨x, hx, hxid⟩ := List.mem_map.mp ha
    have hxne := overlayFirst_none_iff.mp ho x hx
    rw [← hxid]
    exact hxne

theorem reconcileEpisode_sat_self (qid : Nat) {l : List Episode}
    (r : RemoteEpisode) (hd : DistinctDirids l) :
    (∃ x ∈ PodcastsController.reconcileEpisode qid l r,
        x.podcastIndexOrgId = r.id) ∧
    (∀ x ∈ PodcastsController.reconcileEpisode qid l r,
        x.podcastIndexOrgId = r.id → epMeta x = remoteMeta r) := by
  unfold PodcastsController.reconcileEpisode
  cases ho : PodcastsController.overlayFirst r l with
  | some l' =>
    dsimp only
    obtain ⟨l₁, s, l₂, hleq, hl₁, hsid, hl'⟩ := overlayFirst_some_decomp ho
    subst hl'
    subst hleq
    refine ⟨⟨PodcastsController.mergeRemoteEpisode s r,
      List.mem_append.mpr (Or.inr (by simp)), mergeRemoteEpisode_dirid s r⟩, ?_⟩
    intro x hx hxid
    rcases List.mem_append.mp hx with h1 | h2
    · exact absurd hxid (hl₁ x h1)
    · rcases List.mem_cons.mp h2 with rfl | h3
      · exact mergeRemoteEpisode_meta s r
      · exfalso
        have hpair := List.pairwise_append.mp hd
        have hcons := List.pairwise_cons.mp hpair.2.1
        exact hcons.1 x h3 (by rw [hsid, hxid])
  | none =>
    dsimp only
    refine ⟨⟨{ PodcastsController.mapPodcastIndexOrgEpisodeToStorage r with
      podcastId := qid }, List.mem_append.mpr (Or.inr (by simp)), rfl⟩, ?_⟩
    intro x hx hxid
    rcases List.mem_append.mp hx with h1 | h2
    · exact absurd hxid (overlayFirst_none_iff.mp ho x h1)
    · rcases List.mem_cons.mp h2 with rfl | h3
      · rfl
      · cases h3

theorem reconcileEpisodes_preserves_sat {qid : Nat} {r : RemoteEpisode}
    (R' : List RemoteEpisode) :
    ∀ l : List Episode, (∀ r' ∈ R', r'.id ≠ r.id) →
      (∃ x ∈ l, x.podcastIndexOrgId = r.id) →
      (∀ x ∈ l, x.podcastIndexOrgId = r.id → epMeta x = remoteMeta r) →
      (∃ x ∈ PodcastsController.reconcileEpisodes qid l R',
          x.podcastIndexOrgId = r.id) ∧
      (∀ x ∈ PodcastsController.reconcileEpisodes qid l R',
          x.podcastIndexOrgId = r.id → epMeta x = remoteMeta r) := by
  induction R' with
  | nil => intro l _ hex hall; exact ⟨hex, hall⟩
  | cons r' t ih =>
    intro l hne hex hall
    unfold PodcastsController.reconcileEpisodes at *
    rw [List.foldl_cons]
    obtain ⟨hex2, hall2⟩ :=
      reconcileEpisode_preserves_sat qid (hne r' (by simp)) hex hall
    exact ih _ (fun w hw => hne w (by simp [hw])) hex2 hall2

theorem reconcileEpisodes_establish {qid : Nat} (R : List RemoteEpisode) :
    ∀ l : List Episode, DistinctDirids l →
      R.Pairwise (fun a b => a.id ≠ b.id) →
      DistinctDirids (PodcastsController.reconcileEpisodes qid l R) ∧
      ∀ r ∈ R,
        (∃ x ∈ PodcastsController.reconcileEpisodes qid l R,
            x.podcastIndexOrgId = r.id) ∧
        (∀ x ∈ PodcastsController.reconcileEpisodes qid l R,
            x.podcastIndexOrgId = r.id → epMeta x = remoteMeta r) := by
  induction R with
  | nil => intro l hd _; exact ⟨hd, by simp⟩
  | cons r t ih =>
    intro l hd hR
    have hd1 := reconcileEpisode_preserves_distinct qid r hd
    obtain ⟨hRhead, hRtail⟩ := List.pairwise_cons.mp hR
    have hmain := ih (PodcastsController.reconcileEpisode qid l r) hd1 hRtail
    have hself := reconcileEpisode_sat_self qid r hd
    have hfold :
        PodcastsController.reconcileEpisodes qid l (r :: t) =
          PodcastsController.reconcileEpisodes qid
            (PodcastsController.reconcileEpisode qid l r) t := by
      unfold PodcastsController.reconcileEpisodes
      rw [List.foldl_cons]
    rw [hfold]
    refine ⟨hmain.1, ?_⟩
    intro r0 hr0
    rcases List.mem_cons.mp hr0 with rfl | hr0t
    · exact reconcileEpisodes_preserves_sat t _
        (fun w hw => (hRhead w hw).symm) hself.1 hself.2
    · exact hmain.2 r0 hr0t

theorem reconcileEpisode_ids_shape (qid : Nat) (l : List Episode)
    (r : RemoteEpisode) :
    (PodcastsController.reconcileEpisode qid l r).map (fun e => e.id) =
        l.map (fun e => e.id) ∨
    (PodcastsController.reconcileEpisode qid l r).map (fun e => e.id) =
        l.map (fun e => e.id) ++ [none] := by
  unfold PodcastsController.reconcileEpisode
  cases ho : PodcastsController.overlayFirst r l with
  | some l' =>
    dsimp only
    obtain ⟨l₁, s, l₂, hleq, -, -, hl'⟩ := overlayFirst_some_decomp ho
    subst hl'
    subst hleq
    exact Or.inl (by simp [mergeRemoteEpisode_id])
  | none =>
    dsimp only
    exact Or.inr (by simp [PodcastsController.mapPodcastIndexOrgEpisodeToStorage])

theorem reconcileEpisodes_ids_shape (qid : Nat) (R : List RemoteEpisode) :
    ∀ l : List Episode, ∃ n,
      (PodcastsController.reconcileEpisodes qid l R).map (fun e => e.id) =
        l.map (fun e => e.id) ++ List.replicate n none := by
  induction R with
  | nil => intro l; exact ⟨0, by simp [PodcastsController.reconcileEpisodes]⟩
  | cons r t ih =>
    intro l
    unfold PodcastsController.reconcileEpisodes at *
    rw [List.foldl_cons]
    obtain ⟨n, hn⟩ := ih (PodcastsController.reconcileEpisode qid l r)
    rcases reconcileEpisode_ids_shape qid l r with h | h
    · exact ⟨n, by rw [hn, h]⟩
    · exact ⟨n + 1, by rw [hn, h, List.append_assoc]; rfl⟩

theorem pairwise_replicate_none {n : Nat} :
    (List.replicate n (none : Option Nat)).Pairwise
      (fun a b => ∀ j, a = some j → b ≠ some j) := by
  induction n with
  | zero => simp
  | succ m ih =>
    rw [List.replicate_succ]
    refine List.pairwise_cons.mpr ⟨?_, ih⟩
    intro b _ j hj
    cases hj

theorem recon_ids_pairwise (qid : Nat) (R : List RemoteEpisode) {l : List Episode}
    (hl : l.Pairwise (fun a b => ∀ j, a.id = some j → b.id ≠ some j)) :
    (PodcastsController.reconcileEpisodes qid l R).Pairwise
      (fun a b => ∀ j, a.id = some j → b.id ≠ some j) := by
  rw [← List.pairwise_map (f := fun e : Episode => e.id)
    (R := fun a b => ∀ j, a = some j → b ≠ some j)] at hl ⊢
  obtain ⟨n, hn⟩ := reconcileEpisodes_ids_shape qid R l
  rw [hn, List.pairwise_append]
  refine ⟨hl, pairwise_replicate_none, ?_⟩
  intro a _ b hb j haj
  rw [List.eq_of_mem_replicate hb]
  intro hc
  cases hc

theorem recon_ids_bound (qid : Nat) (R : List RemoteEpisode) {l : List Episode}
    {next : Nat} (hb : ∀ z ∈ l, ∀ j, z.id = some j → j < next) :
    ∀ z ∈ PodcastsController.reconcileEpisodes qid l R, ∀ j,
      z.id = some j → j < next := by
  intro z hz j hzj
  obtain ⟨n, hn⟩ := reconcileEpisodes_ids_shape qid R l
  have hzid : z.id ∈ (PodcastsController.reconcileEpisodes qid l R).map
      (fun e => e.id) := List.mem_map.mpr ⟨z, hz, rfl⟩
  rw [hn] at hzid
  rcases List.mem_append.mp hzid with hin | hin
  · obtain ⟨s, hs, hsid⟩ := List.mem_map.mp hin
    exact hb s hs j (by rw [hsid, hzj])
  · rw [List.eq_of_mem_replicate hin] at hzj
    cases hzj

theorem recon_ids_cover (qid : Nat) (R : List RemoteEpisode) {l : List Episode} :
    ∀ s ∈ l, ∃ z ∈ PodcastsController.reconcileEpisodes qid l R,
      z.id = s.id := by
  intro s hs
  obtain ⟨n, hn⟩ := reconcileEpisodes_ids_shape qid R l
  have hsid : s.id ∈ (PodcastsController.reconcileEpisodes qid l R).map
      (fun e => e.id) := by
    rw [hn]
    exact List.mem_append.mpr (Or.inl (List.mem_map.mpr ⟨s, hs, rfl⟩))
  obtain ⟨z, hz, hzid⟩ := List.mem_map.mp hsid
  exact ⟨z, hz, hzid⟩

theorem epCore_eq {a b : Episode} (h : epCore a = epCore b) :
    a.podcastId = b.podcastId ∧ a.podcastIndexOrgId = b.podcastIndexOrgId ∧
      epMeta a = epMeta b := by
  unfold epCore at h
  simp only [Prod.mk.injEq] at h
  exact ⟨h.1, h.2.1, h.2.2.1⟩

theorem lastRemote_nil (d : Nat) : lastRemote [] d = none := rfl

theorem lastRemote_cons (r : RemoteEpisode) (R : List RemoteEpisode) (d : Nat) :
    lastRemote (r :: R) d =
      (lastRemote R d).or (if r.id == d then some r else none) := by
  unfold lastRemote
  rw [List.reverse_cons, List.find?_append]
  have hsing : List.find? (fun x => x.id == d) [r] =
      if (r.id == d) = true then some r else none := by
    by_cases h : (r.id == d) = true
    · rw [if_pos h]
      exact List.find?_cons_of_pos _ h
    · rw [if_neg h]
      exact List.find?_cons_of_neg _ h
  rw [hsing]

theorem lastRemote_eq_none_iff {R : List RemoteEpisode} {d : Nat} :
    lastRemote R d = none ↔ ∀ r ∈ R, r.id ≠ d := by
  unfold lastRemote
  rw [List.find?_eq_none]
  constructor
  · intro h r hr
    have h2 := h r (List.mem_reverse.mpr hr)
    simp only [beq_iff_eq] at h2
    exact h2
  · intro h r hr
    simp only [beq_iff_eq]
    exact h r (List.mem_reverse.mp hr)

theorem mergeRemoteEpisode_merge (x : Episode) (r₁ r₂ : RemoteEpisode) :
    PodcastsController.mergeRemoteEpisode
        (PodcastsController.mergeRemoteEpisode x r₁) r₂ =
      PodcastsController.mergeRemoteEpisode x r₂ := rfl

theorem reconcileEpisode_presence_self (qid : Nat) (l : List Episode)
    (r : RemoteEpisode) :
    ∃ x ∈ PodcastsController.reconcileEpisode qid l r,
      x.podcastIndexOrgId = r.id := by
  unfold PodcastsController.reconcileEpisode
  cases ho : PodcastsController.overlayFirst r l with
  | some l' =>
    dsimp only
    obtain ⟨l₁, s, l₂, hleq, hl₁, hsid, hl'⟩ := overlayFirst_some_decomp ho
    subst hl'
    exact ⟨PodcastsController.mergeRemoteEpisode s r,
      List.mem_append.mpr (Or.inr (by simp)), mergeRemoteEpisode_dirid s r⟩
  | none =>
    dsimp only
    exact ⟨{ PodcastsController.mapPodcastIndexOrgEpisodeToStorage r with
      podcastId := qid }, List.mem_append.mpr (Or.inr (by simp)), rfl⟩

theorem reconcileEpisode_presence_mono (qid : Nat) {l : List Episode}
    (r : RemoteEpisode) {d : Nat} (h : ∃ x ∈ l, x.podcastIndexOrgId = d) :
    ∃ x ∈ PodcastsController.reconcileEpisode qid l r,
      x.podcastIndexOrgId = d := by
  unfold PodcastsController.reconcileEpisode
  cases ho : PodcastsController.overlayFirst r l with
  | some l' =>
    dsimp only
    obtain ⟨l₁, s, l₂, hleq, hl₁, hsid, hl'⟩ := overlayFirst_some_decomp ho
    subst hl'
    subst hleq
    obtain ⟨x, hx, hxd⟩ := h
    rcases List.mem_append.mp hx with h1 | h2
    · exact ⟨x, List.mem_append.mpr (Or.inl h1), hxd⟩
    · rcases List.mem_cons.mp h2 with h3 | h3
      · refine ⟨PodcastsController.mergeRemoteEpisode s r,
          List.mem_append.mpr (Or.inr (by simp)), ?_⟩
        rw [mergeRemoteEpisode_dirid, ← hsid, ← h3]
        exact hxd
      · exact ⟨x, List.mem_append.mpr (Or.inr (List.mem_cons_of_mem _ h3)), hxd⟩
  | none =>
    dsimp only
    obtain ⟨x, hx, hxd⟩ := h
    exact ⟨x, List.mem_append.mpr (Or.inl hx), hxd⟩

theorem reconcileEpisodes_presence_mono (qid : Nat) (R : List RemoteEpisode)
    {d : Nat} :
    ∀ l : List Episode, (∃ x ∈ l, x.podcastIndexOrgId = d) →
      ∃ x ∈ PodcastsController.reconcileEpisodes qid l R,
        x.podcastIndexOrgId = d := by
  induction R with
  | nil => intro l h; exact h
  | cons r R' ih =>
    intro l h
    have hfold : PodcastsController.reconcileEpisodes qid l (r :: R') =
        PodcastsController.reconcileEpisodes qid
          (PodcastsController.reconcileEpisode qid l r) R' := by
      unfold PodcastsController.reconcileEpisodes
      rw [List.foldl_cons]
    rw [hfold]
    exact ih _ (reconcileEpisode_presence_mono qid r h)

theorem reconcileEpisodes_presence (qid : Nat) (R : List RemoteEpisode) :
    ∀ l : List Episode, ∀ r ∈ R,
      ∃ x ∈ PodcastsController.reconcileEpisodes qid l R,
        x.podcastIndexOrgId = r.id := by
  induction R with
  | nil => intro l r hr; cases hr
  | cons r0 R' ih =>
    intro l r hr
    have hfold : PodcastsController.reconcileEpisodes qid l (r0 :: R') =
        PodcastsController.reconcileEpisodes qid
          (PodcastsController.reconcileEpisode qid l r0) R' := by
      unfold PodcastsController.reconcileEpisodes
      rw [List.foldl_cons]
    rw [hfold]
    rcases List.mem_cons.mp hr with h3 | h3
    · rw [h3]
      exact reconcileEpisodes_presence_mono qid R' _
        (reconcileEpisode_presence_self qid l r0)
    · exact ih _ r h3

theorem reconcileEpisodes_preserves_distinct (qid : Nat)
    (R : List RemoteEpisode) :
    ∀ l : List Episode, DistinctDirids l →
      DistinctDirids (PodcastsController.reconcileEpisodes qid l R) := by
  induction R with
  | nil => intro l hd; exact hd
  | cons r R' ih =>
    intro l hd
    have hfold : PodcastsController.reconcileEpisodes qid l (r :: R') =
        PodcastsController.reconcileEpisodes qid
          (PodcastsController.reconcileEpisode qid l r) R' := by
      unfold PodcastsController.reconcileEpisodes
      rw [List.foldl_cons]
    rw [hfold]
    exact ih _ (reconcileEpisode_preserves_distinct qid r hd)

theorem reconcileEpisode_untouched (qid : Nat) {l : List Episode}
    {r : RemoteEpisode} {x : Episode}
    (hne : x.podcastIndexOrgId ≠ r.id) :
    x ∈ PodcastsController.reconcileEpisode qid l r → x ∈ l := by
  unfold PodcastsController.reconcileEpisode
  cases ho : PodcastsController.overlayFirst r l with
  | some l' =>
    dsimp only
    intro hx
    obtain ⟨l₁, s, l₂, hleq, hl₁, hsid, hl'⟩ := overlayFirst_some_decomp ho
    subst hl'
    subst hleq
    rcases List.mem_append.mp hx with h1 | h2
    · exact List.mem_append.mpr (Or.inl h1)
    · rcases List.mem_cons.mp h2 with h3 | h3
      · rw [h3] at hne
        exact absurd (mergeRemoteEpisode_dirid s r) hne
      · exact List.mem_append.mpr (Or.inr (List.mem_cons_of_mem s h3))
  | none =>
    dsimp only
    intro hx
    rcases List.mem_append.mp hx with h1 | h2
    · exact h1
    · rcases List.mem_cons.mp h2 with h3 | h3
      · exfalso
        apply hne
        rw [h3]
        rfl
      · cases h3

theorem reconcileEpisodes_untouched (qid : Nat) (R : List RemoteEpisode) :
    ∀ l : List Episode, ∀ x ∈ PodcastsController.reconcileEpisodes qid l R,
      (∀ r ∈ R, r.id ≠ x.podcastIndexOrgId) → x ∈ l := by
  induction R with
  | nil => intro l x hx _; exact hx
  | cons r R' ih =>
    intro l x hx hne
    have hfold : PodcastsController.reconcileEpisodes qid l (r :: R') =
        PodcastsController.reconcileEpisodes qid
          (PodcastsController.reconcileEpisode qid l r) R' := by
      unfold PodcastsController.reconcileEpisodes
      rw [List.foldl_cons]
    rw [hfold] at hx
    have hx1 : x ∈ PodcastsController.reconcileEpisode qid l r :=
      ih _ x hx (fun r' hr' => hne r' (List.mem_cons_of_mem r hr'))
    exact reconcileEpisode_untouched qid
      (fun hc => hne r (List.mem_cons_self r R') hc.symm) hx1

theorem overlayPoint_dirid (r : RemoteEpisode) (x : Episode) :
    (overlayPoint r x).podcastIndexOrgId = x.podcastIndexOrgId := by
  unfold overlayPoint
  by_cases hx : x.podcastIndexOrgId = r.id
  · rw [if_pos hx, mergeRemoteEpisode_dirid, hx]
  · rw [if_neg hx]

theorem reconcileEpisode_map_of_distinct (qid : Nat) {l : List Episode}
    (r : RemoteEpisode) (hd : DistinctDirids l)
    (hex : ∃ x ∈ l, x.podcastIndexOrgId = r.id) :
    PodcastsController.reconcileEpisode qid l r = l.map (overlayPoint r) := by
  unfold PodcastsController.reconcileEpisode
  cases ho : PodcastsController.overlayFirst r l with
  | none =>
    exfalso
    obtain ⟨x, hx, hxid⟩ := hex
    exact overlayFirst_none_iff.mp ho x hx hxid
  | some l' =>
    dsimp only
    obtain ⟨l₁, s, l₂, hleq, hl₁, hsid, hl'⟩ := overlayFirst_some_decomp ho
    subst hl'
    subst hleq
    rw [List.map_append, List.map_cons]
    have h2 : ∀ y ∈ l₂, y.podcastIndexOrgId ≠ r.id := by
      intro y hy hc
      have hpair := (List.pairwise_append.mp hd).2.1
      exact (List.pairwise_cons.mp hpair).1 y hy (by rw [hsid, hc])
    have e1 : l₁.map (overlayPoint r) = l₁ :=
      list_map_eq_self (fun y hy => by
        unfold overlayPoint
        rw [if_neg (hl₁ y hy)])
    have e2 : l₂.map (overlayPoint r) = l₂ :=
      list_map_eq_self (fun y hy => by
        unfold overlayPoint
        rw [if_neg (h2 y hy)])
    have e3 : overlayPoint r s = PodcastsController.mergeRemoteEpisode s r := by
      unfold overlayPoint
      rw [if_pos hsid]
    rw [e1, e2, e3]

theorem lastRemote_char_point (r : RemoteEpisode) (R' : List RemoteEpisode)
    (x : Episode) :
    lastRemotePoint R' (overlayPoint r x) = lastRemotePoint (r :: R') x := by
  unfold lastRemotePoint overlayPoint
  by_cases hx0 : x.podcastIndexOrgId = r.id
  · rw [if_pos hx0, mergeRemoteEpisode_dirid, ← hx0, lastRemote_cons]
    cases hlast : lastRemote R' x.podcastIndexOrgId with
    | some r2 =>
      exact mergeRemoteEpisode_merge x r r2
    | none =>
      rw [Option.none_or,
        if_pos (show (r.id == x.podcastIndexOrgId) = true from by
          rw [hx0]
          exact beq_self_eq_true r.id)]
  · rw [if_neg hx0, lastRemote_cons,
      if_neg (show ¬ (r.id == x.podcastIndexOrgId) = true from by
        simp only [beq_iff_eq]
        exact fun hc => hx0 hc.symm),
      Option.or_none]

theorem reconcile_char (qid : Nat) (R : List RemoteEpisode) :
    ∀ l : List Episode, DistinctDirids l →
      (∀ r ∈ R, ∃ x ∈ l, x.podcastIndexOrgId = r.id) →
      PodcastsController.reconcileEpisodes qid l R =
        l.map (lastRemotePoint R) := by
  induction R with
  | nil =>
    intro l _ _
    exact (list_map_eq_self (fun x _ => rfl)).symm
  | cons r R' ih =>
    intro l hd hpres
    have hdmap : (l.map (overlayPoint r)).map (fun e => e.podcastIndexOrgId) =
        l.map (fun e => e.podcastIndexOrgId) := by
      rw [List.map_map]
      exact List.map_congr_left (fun x _ => overlayPoint_dirid r x)
    have hd' : DistinctDirids (l.map (overlayPoint r)) := by
      rw [distinctDirids_map] at hd ⊢
      rw [hdmap]
      exact hd
    have hpres' : ∀ r' ∈ R', ∃ x ∈ l.map (overlayPoint r),
        x.podcastIndexOrgId = r'.id := by
      intro r' hr'
      obtain ⟨x, hx, hxid⟩ := hpres r' (List.mem_cons_of_mem r hr')
      exact ⟨overlayPoint r x, List.mem_map.mpr ⟨x, hx, rfl⟩,
        by rw [overlayPoint_dirid]; exact hxid⟩
    have hfold : PodcastsController.reconcileEpisodes qid l (r :: R') =
        PodcastsController.reconcileEpisodes qid
          (PodcastsController.reconcileEpisode qid l r) R' := by
      unfold PodcastsController.reconcileEpisodes
      rw [List.foldl_cons]
    rw [hfold, reconcileEpisode_map_of_distinct qid r hd (hpres r (by simp)),
      ih (l.map (overlayPoint r)) hd' hpres', List.map_map]
    exact List.map_congr_left (fun x _ => lastRemote_char_point r R' x)

theorem reconcile_fix_lastRemote (qid : Nat) (R : List RemoteEpisode)
    {l : List Episode} (hd : DistinctDirids l)
    (hpres : ∀ r ∈ R, ∃ x ∈ l, x.podcastIndexOrgId = r.id)
    (hmeta : ∀ x ∈ l, ∀ r, lastRemote R x.podcastIndexOrgId = some r →
      epMeta x = remoteMeta r) :
    PodcastsController.reconcileEpisodes qid l R = l := by
  rw [reconcile_char qid R l hd hpres]
  apply list_map_eq_self
  intro x hx
  unfold lastRemotePoint
  cases hlast : lastRemote R x.podcastIndexOrgId with
  | none => rfl
  | some r => exact mergeRemoteEpisode_fix (hmeta x hx r hlast)

theorem reconcile_lastRemote_meta (qid : Nat) (R : List RemoteEpisode) :
    ∀ l : List Episode, DistinctDirids l →
      ∀ x ∈ PodcastsController.reconcileEpisodes qid l R,
        ∀ r, lastRemote R x.podcastIndexOrgId = some r →
          epMeta x = remoteMeta r := by
  induction R with
  | nil =>
    intro l _ x _ r hr
    rw [lastRemote_nil] at hr
    cases hr
  | cons r0 R' ih =>
    intro l hd x hx r hr
    have hfold : PodcastsController.reconcileEpisodes qid l (r0 :: R') =
        PodcastsController.reconcileEpisodes qid
          (PodcastsController.reconcileEpisode qid l r0) R' := by
      unfold PodcastsController.reconcileEpisodes
      rw [List.foldl_cons]
    rw [hfold] at hx
    rw [lastRemote_cons] at hr
    have hd1 := reconcileEpisode_preserves_distinct qid r0 hd
    cases hlast : lastRemote R' x.podcastIndexOrgId with
    | some r2 =>
      rw [hlast] at hr
      have hr2 : r2 = r := Option.some.inj hr
      subst hr2
      exact ih _ hd1 x hx _ hlast
    | none =>
      rw [hlast, Option.none_or] at hr
      by_cases h0 : (r0.id == x.podcastIndexOrgId) = true
      · rw [if_pos h0] at hr
        have hr0 : r0 = r := Option.some.inj hr
        subst hr0
        have hRne : ∀ r' ∈ R', r'.id ≠ x.podcastIndexOrgId :=
          lastRemote_eq_none_iff.mp hlast
        have hxl : x ∈ PodcastsController.reconcileEpisode qid l r0 :=
          reconcileEpisodes_untouched qid R' _ x hx hRne
        have h0' : x.podcastIndexOrgId = r0.id := by
          have h1 : r0.id = x.podcastIndexOrgId := by
            simpa only [beq_iff_eq] using h0
          exact h1.symm
        exact (reconcileEpisode_sat_self qid r0 hd).2 x hxl h0'
      · rw [if_neg h0] at hr
        cases hr

theorem reconcileEpisode_pair_shape (qid : Nat) (l : List Episode)
    (r : RemoteEpisode) :
    (PodcastsController.reconcileEpisode qid l r).map
        (fun e => (e.id, e.podcastIndexOrgId)) =
      l.map (fun e => (e.id, e.podcastIndexOrgId)) ∨
    (PodcastsController.reconcileEpisode qid l r).map
        (fun e => (e.id, e.podcastIndexOrgId)) =
      l.map (fun e => (e.id, e.podcastIndexOrgId)) ++
        [((none : Option Nat), r.id)] := by
  unfold PodcastsController.reconcileEpisode
  cases ho : PodcastsController.overlayFirst r l with
  | some l' =>
    dsimp only
    obtain ⟨l₁, s, l₂, hleq, hl₁, hsid, hl'⟩ := overlayFirst_some_decomp ho
    subst hl'
    subst hleq
    left
    simp [mergeRemoteEpisode_id, mergeRemoteEpisode_dirid, hsid]
  | none =>
    dsimp only
    right
    simp [PodcastsController.mapPodcastIndexOrgEpisodeToStorage]

theorem reconcileEpisodes_pair_shape (qid : Nat) (R : List RemoteEpisode) :
    ∀ l : List Episode, ∃ tail,
      (PodcastsController.reconcileEpisodes qid l R).map
          (fun e => (e.id, e.podcastIndexOrgId)) =
        l.map (fun e => (e.id, e.podcastIndexOrgId)) ++ tail ∧
      ∀ t ∈ tail, t.1 = (none : Option Nat) := by
  induction R with
  | nil =>
    intro l
    refine ⟨[], ?_, ?_⟩
    · rw [List.append_nil]
      rfl
    · intro t ht
      cases ht
  | cons r R' ih =>
    intro l
    have hfold : PodcastsController.reconcileEpisodes qid l (r :: R') =
        PodcastsController.reconcileEpisodes qid
          (PodcastsController.reconcileEpisode qid l r) R' := by
      unfold PodcastsController.reconcileEpisodes
      rw [List.foldl_cons]
    rw [hfold]
    obtain ⟨tail, htail, hnone⟩ := ih (PodcastsController.reconcileEpisode qid l r)
    rcases reconcileEpisode_pair_shape qid l r with h | h
    · exact ⟨tail, by rw [htail, h], hnone⟩
    · refine ⟨((none : Option Nat), r.id) :: tail, ?_, ?_⟩
      · rw [htail, h, List.append_assoc]
        rfl
      · intro t ht
        rcases List.mem_cons.mp ht with h2 | h2
        · rw [h2]
        · exact hnone t h2

theorem pair_map_mem {A l₀ : List Episode}
    (h : A.map (fun e => (e.id, e.podcastIndexOrgId)) =
      l₀.map (fun e => (e.id, e.podcastIndexOrgId))) :
    ∀ a ∈ A, ∃ y ∈ l₀, y.id = a.id ∧
      y.podcastIndexOrgId = a.podcastIndexOrgId := by
  intro a ha
  have hmem : (a.id, a.podcastIndexOrgId) ∈
      l₀.map (fun e => (e.id, e.podcastIndexOrgId)) := by
    rw [← h]
    exact List.mem_map.mpr ⟨a, ha, rfl⟩
  obtain ⟨y, hy, hyeq⟩ := List.mem_map.mp hmem
  have h1 : y.id = a.id := congrArg Prod.fst hyeq
  have h2 : y.podcastIndexOrgId = a.podcastIndexOrgId := congrArg Prod.snd hyeq
  exact ⟨y, hy, h1, h2⟩

theorem pair_map_fst {A l₀ : List Episode}
    (h : A.map (fun e => (e.id, e.podcastIndexOrgId)) =
      l₀.map (fun e => (e.id, e.podcastIndexOrgId))) :
    A.map (fun e => e.id) = l₀.map (fun e => e.id) := by
  have h2 := congrArg (List.map Prod.fst) h
  rw [List.map_map, List.map_map] at h2
  exact h2

theorem pair_map_snd {A l₀ : List Episode}
    (h : A.map (fun e => (e.id, e.podcastIndexOrgId)) =
      l₀.map (fun e => (e.id, e.podcastIndexOrgId))) :
    A.map (fun e => e.podcastIndexOrgId) =
      l₀.map (fun e => e.podcastIndexOrgId) := by
  have h2 := congrArg (List.map Prod.snd) h
  rw [List.map_map, List.map_map] at h2
  exact h2

theorem mem_assignIds {B : List Episode} :
    ∀ n : Nat, ∀ x ∈ assignIds n B, ∃ b ∈ B,
      x.podcastIndexOrgId = b.podcastIndexOrgId ∧
        x.podcastId = b.podcastId := by
  induction B with
  | nil => intro n x hx; cases hx
  | cons b B' ih =>
    intro n x hx
    rcases List.mem_cons.mp hx with h2 | h2
    · refine ⟨b, List.mem_cons_self b B', ?_, ?_⟩ <;> rw [h2]
    · obtain ⟨b', hb', hb'1, hb'2⟩ := ih (n + 1) x h2
      exact ⟨b', List.mem_cons_of_mem b hb', hb'1, hb'2⟩

theorem assignIds_map_dirid (B : List Episode) :
    ∀ n : Nat, (assignIds n B).map (fun e => e.podcastIndexOrgId) =
      B.map (fun e => e.podcastIndexOrgId) := by
  induction B with
  | nil => intro n; rfl
  | cons b B' ih =>
    intro n
    unfold assignIds
    rw [List.map_cons, List.map_cons, ih (n + 1)]

theorem putEpisodes_assign (B : List Episode) :
    ∀ cur : DB, (∀ b ∈ B, b.id = none) →
      (OfflineStorageHandler.putEpisodes cur B).episodes =
        cur.episodes ++ assignIds cur.nextEpisodeId B := by
  induction B with
  | nil =>
    intro cur _
    simp [OfflineStorageHandler.putEpisodes, assignIds]
  | cons b B' ih =>
    intro cur hB
    have hb : b.id = none := hB b (List.mem_cons_self b B')
    have hput : OfflineStorageHandler.putEpisode cur b =
        { cur with
          episodes := cur.episodes ++ [{ b with id := some cur.nextEpisodeId }]
          nextEpisodeId := cur.nextEpisodeId + 1 } := by
      unfold OfflineStorageHandler.putEpisode
      rw [hb]
    have hfold : OfflineStorageHandler.putEpisodes cur (b :: B') =
        OfflineStorageHandler.putEpisodes
          (OfflineStorageHandler.putEpisode cur b) B' := by
      unfold OfflineStorageHandler.putEpisodes
      rw [List.foldl_cons]
    rw [hfold, ih _ (fun w hw => hB w (List.mem_cons_of_mem b hw)), hput]
    show (cur.episodes ++ [{ b with id := some cur.nextEpisodeId }]) ++
        assignIds (cur.nextEpisodeId + 1) B' =
      cur.episodes ++ assignIds cur.nextEpisodeId (b :: B')
    rw [List.append_assoc]
    rfl

theorem putEpisodes_replace (A : List Episode) :
    ∀ cur : DB, (∀ a ∈ A, ∃ s ∈ cur.episodes, s.id = a.id) →
      (∀ a ∈ A, a.id.isSome = true) →
      A.Pairwise (fun a b => a.id ≠ b.id) →
      (OfflineStorageHandler.putEpisodes cur A).episodes =
        cur.episodes.map (fun s => (A.find? (fun a => a.id == s.id)).getD s) := by
  induction A with
  | nil =>
    intro cur _ _ _
    symm
    exact list_map_eq_self (fun s _ => rfl)
  | cons a A' ih =>
    intro cur hpres hsome hpair
    obtain ⟨i, hai⟩ :=
      Option.isSome_iff_exists.mp (hsome a (List.mem_cons_self a A'))
    obtain ⟨s₀, hs₀, hs₀id⟩ := hpres a (List.mem_cons_self a A')
    have hany : (cur.episodes.any fun s => s.id == some i) = true :=
      List.any_eq_true.mpr ⟨s₀, hs₀, by
        rw [hs₀id, hai]
        exact beq_self_eq_true (some i)⟩
    have hput : (OfflineStorageHandler.putEpisode cur a).episodes =
        cur.episodes.map (fun s => if s.id = some i then a else s) := by
      unfold OfflineStorageHandler.putEpisode
      rw [hai]
      dsimp only
      rw [if_pos hany]
    have hids : ∀ s : Episode, (if s.id = some i then a else s).id = s.id := by
      intro s
      by_cases hsi : s.id = some i
      · rw [if_pos hsi, hai, hsi]
      · rw [if_neg hsi]
    have hpres' : ∀ a' ∈ A',
        ∃ s' ∈ (OfflineStorageHandler.putEpisode cur a).episodes,
          s'.id = a'.id := by
      intro a' ha'
      obtain ⟨s', hs', hs'id⟩ := hpres a' (List.mem_cons_of_mem a ha')
      refine ⟨if s'.id = some i then a else s', ?_, ?_⟩
      · rw [hput]
        exact List.mem_map.mpr ⟨s', hs', rfl⟩
      · rw [hids s', hs'id]
    have hsome' : ∀ a' ∈ A', a'.id.isSome = true :=
      fun a' ha' => hsome a' (List.mem_cons_of_mem a ha')
    have hpair' := (List.pairwise_cons.mp hpair).2
    have hfold : OfflineStorageHandler.putEpisodes cur (a :: A') =
        OfflineStorageHandler.putEpisodes
          (OfflineStorageHandler.putEpisode cur a) A' := by
      unfold OfflineStorageHandler.putEpisodes
      rw [List.foldl_cons]
    rw [hfold, ih _ hpres' hsome' hpair', hput, List.map_map]
    apply List.map_congr_left
    intro s hs
    simp only [Function.comp_apply]
    by_cases hsi : s.id = some i
    · rw [if_pos hsi]
      have hfA' : A'.find? (fun a' => a'.id == a.id) = none :=
        List.find?_eq_none.mpr (fun x hx => by
          simp only [beq_iff_eq]
          exact fun hc => (List.pairwise_cons.mp hpair).1 x hx hc.symm)
      have hfcons : (a :: A').find? (fun a' => a'.id == s.id) = some a :=
        List.find?_cons_of_pos _ (by
          rw [hai, hsi]
          exact beq_self_eq_true (some i))
      rw [hfA', hfcons]
      rfl
    · rw [if_neg hsi]
      have hfcons2 : List.find? (fun a' => a'.id == s.id) (a :: A') =
          List.find? (fun a' => a'.id == s.id) A' :=
        List.find?_cons_of_neg _ (by
          rw [hai]
          simp only [beq_iff_eq]
          exact fun hc => hsi hc.symm)
      rw [hfcons2]

theorem filter_map_comm_of {α : Type} {f : α → α} {p : α → Bool} :
    ∀ {l : List α}, (∀ s ∈ l, p (f s) = p s) →
      (l.map f).filter p = (l.filter p).map f := by
  intro l
  induction l with
  | nil => intro _; rfl
  | cons a t ih =>
    intro h
    have ht := ih (fun s hs => h s (List.mem_cons_of_mem a hs))
    by_cases hpa : p a = true
    · simp [List.filter_cons, h a (List.mem_cons_self a t), hpa, ht]
    · simp [List.filter_cons, h a (List.mem_cons_self a t), hpa, ht]

theorem updatePodcastsStep_saturates {fetch : String → Option (List RemoteEpisode)}
    {acc : DB} {q : Podcast} {R : List RemoteEpisode}
    (hwf : acc.WF) (hurl : FeedUrlsDistinct acc) (hq : q ∈ acc.podcasts)
    (hfq : fetch q.feedUrl = some R)
    (hd : DistinctDirids (acc.episodes.filter
      (fun e => e.podcastId == q.id.getD 0))) :
    SatDB (PodcastsController.updatePodcastsStep fetch acc q)
      (q.id.getD 0) R := by
  have hstep : PodcastsController.updatePodcastsStep fetch acc q =
      OfflineStorageHandler.putEpisodes acc
        (PodcastsController.reconcileEpisodes (q.id.getD 0)
          (OfflineStorageHandler.getEpisodes acc (q.id.getD 0)) R) := by
    unfold PodcastsController.updatePodcastsStep
    rw [hfq]
    dsimp only
    rw [controller_getEpisodes_eq hurl hq]
  have hl₀perm : (OfflineStorageHandler.getEpisodes acc (q.id.getD 0)).Perm
      (acc.episodes.filter (fun e => e.podcastId == q.id.getD 0)) :=
    sortByDesc_perm _ _
  have hl₀d : DistinctDirids
      (OfflineStorageHandler.getEpisodes acc (q.id.getD 0)) := by
    unfold DistinctDirids at hd ⊢
    exact (hl₀perm.pairwise_iff (fun h => h.symm)).mpr hd
  have hl₀mem : ∀ x ∈ OfflineStorageHandler.getEpisodes acc (q.id.getD 0),
      x ∈ acc.episodes ∧ x.podcastId = q.id.getD 0 :=
    fun x hx => mem_storedEpisodes hx
  have hl₀idpair : (OfflineStorageHandler.getEpisodes acc (q.id.getD 0)).Pairwise
      (fun a b => a.id ≠ b.id) := by
    have hepi : acc.episodes.Pairwise (fun a b => a.id ≠ b.id) := hwf.2.2.2
    have hfil : (acc.episodes.filter
        (fun e => e.podcastId == q.id.getD 0)).Pairwise
        (fun a b => a.id ≠ b.id) :=
      List.Pairwise.sublist (List.filter_sublist _) hepi
    exact (hl₀perm.pairwise_iff (fun h => h.symm)).mpr hfil
  have hl₀pairwise : (OfflineStorageHandler.getEpisodes acc (q.id.getD 0)).Pairwise
      (fun a b => ∀ j, a.id = some j → b.id ≠ some j) := by
    refine hl₀idpair.imp ?_
    intro a b hab j haj hbj
    rw [haj, hbj] at hab
    exact hab rfl
  have hl₀bound : ∀ z ∈ OfflineStorageHandler.getEpisodes acc (q.id.getD 0),
      ∀ j, z.id = some j → j < acc.nextEpisodeId := by
    intro z hz j hzj
    obtain ⟨i, hzi, hib⟩ := wf_episode_id hwf (hl₀mem z hz).1
    rw [hzi] at hzj
    cases hzj
    exact hib
  have hLtag : ∀ x ∈ PodcastsController.reconcileEpisodes (q.id.getD 0)
      (OfflineStorageHandler.getEpisodes acc (q.id.getD 0)) R,
      x.podcastId = q.id.getD 0 := by
    intro x hx
    exact (reconcileEpisodes_tagged
      (fun y hy => ⟨(hl₀mem y hy).2,
        Or.inr ⟨y, (hl₀mem y hy).1, rfl, (hl₀mem y hy).2⟩⟩) x hx).1
  have hLpairwise := recon_ids_pairwise (q.id.getD 0) R hl₀pairwise
  have hLbound := recon_ids_bound (q.id.getD 0) R hl₀bound
  have hLd : DistinctDirids (PodcastsController.reconcileEpisodes (q.id.getD 0)
      (OfflineStorageHandler.getEpisodes acc (q.id.getD 0)) R) :=
    reconcileEpisodes_preserves_distinct (q.id.getD 0) R _ hl₀d
  have hLmeta : ∀ x ∈ PodcastsController.reconcileEpisodes (q.id.getD 0)
      (OfflineStorageHandler.getEpisodes acc (q.id.getD 0)) R,
      ∀ r, lastRemote R x.podcastIndexOrgId = some r →
        epMeta x = remoteMeta r :=
    fun x hx r hr => reconcile_lastRemote_meta (q.id.getD 0) R _ hl₀d x hx r hr
  obtain ⟨tail, htail, htnone⟩ := reconcileEpisodes_pair_shape (q.id.getD 0) R
    (OfflineStorageHandler.getEpisodes acc (q.id.getD 0))
  obtain ⟨A, B, hLAB, hApair, hBtail⟩ := List.map_eq_append_iff.mp htail
  have hBnone : ∀ b ∈ B, b.id = none := by
    intro b hb
    have hmem : (b.id, b.podcastIndexOrgId) ∈ tail := by
      rw [← hBtail]
      exact List.mem_map.mpr ⟨b, hb, rfl⟩
    exact htnone (b.id, b.podcastIndexOrgId) hmem
  have hAmem := pair_map_mem hApair
  have hLdAB : DistinctDirids (A ++ B) := hLAB ▸ hLd
  have hABsplit := List.pairwise_append.mp hLdAB
  have hAmemL : ∀ a ∈ A, a ∈ PodcastsController.reconcileEpisodes (q.id.getD 0)
      (OfflineStorageHandler.getEpisodes acc (q.id.getD 0)) R := by
    intro a ha
    rw [hLAB]
    exact List.mem_append.mpr (Or.inl ha)
  have hBmemL : ∀ b ∈ B, b ∈ PodcastsController.reconcileEpisodes (q.id.getD 0)
      (OfflineStorageHandler.getEpisodes acc (q.id.getD 0)) R := by
    intro b hb
    rw [hLAB]
    exact List.mem_append.mpr (Or.inr hb)
  have hApres : ∀ a ∈ A, ∃ s ∈ acc.episodes, s.id = a.id := by
    intro a ha
    obtain ⟨y, hy, hyid, -⟩ := hAmem a ha
    exact ⟨y, (hl₀mem y hy).1, hyid⟩
  have hAsome : ∀ a ∈ A, a.id.isSome = true := by
    intro a ha
    obtain ⟨y, hy, hyid, -⟩ := hAmem a ha
    obtain ⟨j, hyj, -⟩ := wf_episode_id hwf (hl₀mem y hy).1
    rw [← hyid, hyj]
    rfl
  have hApairwise : A.Pairwise (fun a b => a.id ≠ b.id) := by
    have hmap : (A.map (fun e => e.id)).Pairwise (fun a b => a ≠ b) := by
      rw [pair_map_fst hApair]
      exact List.pairwise_map.mpr hl₀idpair
    exact List.pairwise_map.mp hmap
  have hrep := putEpisodes_replace A acc hApres hAsome hApairwise
  have hassign :=
    putEpisodes_assign B (OfflineStorageHandler.putEpisodes acc A) hBnone
  have hsplitdb : OfflineStorageHandler.putEpisodes acc
      (PodcastsController.reconcileEpisodes (q.id.getD 0)
        (OfflineStorageHandler.getEpisodes acc (q.id.getD 0)) R) =
      OfflineStorageHandler.putEpisodes
        (OfflineStorageHandler.putEpisodes acc A) B := by
    rw [hLAB]
    unfold OfflineStorageHandler.putEpisodes
    rw [List.foldl_append]
  have hfinal : (OfflineStorageHandler.putEpisodes acc
      (PodcastsController.reconcileEpisodes (q.id.getD 0)
        (OfflineStorageHandler.getEpisodes acc (q.id.getD 0)) R)).episodes =
      acc.episodes.map (fun s => (A.find? (fun a => a.id == s.id)).getD s) ++
        assignIds (OfflineStorageHandler.putEpisodes acc A).nextEpisodeId B := by
    rw [hsplitdb, hassign, hrep]
  have hfindA : ∀ s ∈ acc.episodes, ∀ a,
      A.find? (fun a' => a'.id == s.id) = some a →
      a.podcastId = q.id.getD 0 ∧
        a.podcastIndexOrgId = s.podcastIndexOrgId ∧
        s.podcastId = q.id.getD 0 := by
    intro s hs a hfind
    have haA : a ∈ A := List.mem_of_find?_eq_some hfind
    have haid : a.id = s.id := by
      have h1 := List.find?_some hfind
      simpa only [beq_iff_eq] using h1
    obtain ⟨y, hy, hyid, hydir⟩ := hAmem a haA
    have hys : y = s := mem_unique_by_key hwf.2.2.2 (hl₀mem y hy).1 hs
      (by rw [hyid, haid])
    refine ⟨hLtag a (hAmemL a haA), ?_, ?_⟩
    · rw [← hydir, hys]
    · rw [← hys]
      exact (hl₀mem y hy).2
  have hrepl_qid : ∀ s ∈ acc.episodes,
      (((A.find? (fun a => a.id == s.id)).getD s).podcastId == q.id.getD 0) =
        (s.podcastId == q.id.getD 0) := by
    intro s hs
    cases hfind : A.find? (fun a => a.id == s.id) with
    | none => rw [Option.getD_none]
    | some a =>
      rw [Option.getD_some]
      obtain ⟨h1, -, h3⟩ := hfindA s hs a hfind
      rw [h1, h3]
  have hrepl_dirid : ∀ s ∈ acc.episodes,
      ((A.find? (fun a => a.id == s.id)).getD s).podcastIndexOrgId =
        s.podcastIndexOrgId := by
    intro s hs
    cases hfind : A.find? (fun a => a.id == s.id) with
    | none => rw [Option.getD_none]
    | some a =>
      rw [Option.getD_some]
      exact (hfindA s hs a hfind).2.1
  have hassignqid : ∀ x ∈ assignIds
      (OfflineStorageHandler.putEpisodes acc A).nextEpisodeId B,
      (x.podcastId == q.id.getD 0) = true := by
    intro x hx
    obtain ⟨b, hb, -, hbq⟩ := mem_assignIds _ x hx
    rw [hbq]
    simp only [beq_iff_eq]
    exact hLtag b (hBmemL b hb)
  have hfilter : (OfflineStorageHandler.putEpisodes acc
      (PodcastsController.reconcileEpisodes (q.id.getD 0)
        (OfflineStorageHandler.getEpisodes acc (q.id.getD 0)) R)).episodes.filter
        (fun e => e.podcastId == q.id.getD 0) =
      (acc.episodes.filter (fun e => e.podcastId == q.id.getD 0)).map
        (fun s => (A.find? (fun a => a.id == s.id)).getD s) ++
      assignIds (OfflineStorageHandler.putEpisodes acc A).nextEpisodeId B := by
    rw [hfinal, List.filter_append, filter_map_comm_of hrepl_qid,
      List.filter_eq_self.mpr hassignqid]
  unfold SatDB
  rw [hstep]
  refine ⟨?_, ?_, ?_⟩
  · intro r hr
    obtain ⟨x, hxL, hxid⟩ := reconcileEpisodes_presence (q.id.getD 0) R
      (OfflineStorageHandler.getEpisodes acc (q.id.getD 0)) r hr
    obtain ⟨x', hx'mem, hx'core⟩ :=
      putEpisodes_core_exists _ acc hxL hLpairwise hLbound
    obtain ⟨hc1, hc2, -⟩ := epCore_eq hx'core
    refine ⟨x', List.mem_filter.mpr ⟨hx'mem, ?_⟩, by rw [hc2, hxid]⟩
    simp [hc1, hLtag x hxL]
  · intro x' hx' r hr
    have hx'mem : x' ∈ (OfflineStorageHandler.putEpisodes acc
        (PodcastsController.reconcileEpisodes (q.id.getD 0)
          (OfflineStorageHandler.getEpisodes acc (q.id.getD 0)) R)).episodes :=
      (List.mem_filter.mp hx').1
    have hx'pid : x'.podcastId = q.id.getD 0 := by
      simpa using (List.mem_filter.mp hx').2
    rcases putEpisodes_core_sub _ acc x' hx'mem with ⟨x, hxL, hcore⟩ |
      ⟨haccmem, hcond⟩
    · obtain ⟨hc1, hc2, hc3⟩ := epCore_eq hcore
      rw [hc3]
      refine hLmeta x hxL r ?_
      rw [← hc2]
      exact hr
    · exfalso
      have hx'fil : x' ∈ acc.episodes.filter
          (fun e => e.podcastId == q.id.getD 0) :=
        List.mem_filter.mpr ⟨haccmem, by simp [hx'pid]⟩
      have hx'l₀ : x' ∈ OfflineStorageHandler.getEpisodes acc (q.id.getD 0) :=
        hl₀perm.mem_iff.mpr hx'fil
      obtain ⟨z, hzL, hzid⟩ := recon_ids_cover (q.id.getD 0) R x' hx'l₀
      obtain ⟨j, hx'j, -⟩ := wf_episode_id hwf haccmem
      exact absurd hx'j (hcond z hzL j (by rw [hzid, hx'j]))
  · rw [hfilter]
    unfold DistinctDirids
    rw [List.pairwise_append]
    refine ⟨?_, ?_, ?_⟩
    · rw [List.pairwise_map]
      refine List.Pairwise.imp_of_mem ?_ hd
      intro s₁ s₂ hs₁ hs₂ hne
      rw [hrepl_dirid s₁ (List.mem_filter.mp hs₁).1,
        hrepl_dirid s₂ (List.mem_filter.mp hs₂).1]
      exact hne
    · have hBd : DistinctDirids B := hABsplit.2.1
      have hgoal : DistinctDirids (assignIds
          (OfflineStorageHandler.putEpisodes acc A).nextEpisodeId B) := by
        rw [distinctDirids_map, assignIds_map_dirid, ← distinctDirids_map]
        exact hBd
      exact hgoal
    · intro a' ha' b' hb'
      obtain ⟨s, hsfil, hsrepl⟩ := List.mem_map.mp ha'
      obtain ⟨b, hb, hbdir, -⟩ := mem_assignIds _ b' hb'
      have hsl₀ : s ∈ OfflineStorageHandler.getEpisodes acc (q.id.getD 0) :=
        hl₀perm.mem_iff.mpr hsfil
      have hsdir : s.podcastIndexOrgId ∈
          A.map (fun e => e.podcastIndexOrgId) := by
        rw [pair_map_snd hApair]
        exact List.mem_map.mpr ⟨s, hsl₀, rfl⟩
      obtain ⟨a, haA, hadir⟩ := List.mem_map.mp hsdir
      have h1 : a'.podcastIndexOrgId = s.podcastIndexOrgId := by
        rw [← hsrepl]
        exact hrepl_dirid s (List.mem_filter.mp hsfil).1
      rw [h1, hbdir, ← hadir]
      exact hABsplit.2.2 a haA b hb

theorem satDB_of_filter_eq {db1 db2 : DB} {qid : Nat} {R : List RemoteEpisode}
    (h : db1.episodes.filter (fun e => e.podcastId == qid) =
      db2.episodes.filter (fun e => e.podcastId == qid))
    (hs : SatDB db2 qid R) : SatDB db1 qid R := by
  unfold SatDB at *
  rw [h]
  exact hs

theorem podcast_getD_ne {db : DB} (hwf : db.WF) {p q : Podcast}
    (hp : p ∈ db.podcasts) (hq : q ∈ db.podcasts) (hne : p.id ≠ q.id) :
    p.id.getD 0 ≠ q.id.getD 0 := by
  obtain ⟨i, hpi, -⟩ := wf_podcast_id hwf hp
  obtain ⟨j, hqj, -⟩ := wf_podcast_id hwf hq
  rw [hpi, hqj]
  simp only [Option.getD_some]
  intro hij
  apply hne
  rw [hpi, hqj, hij]

theorem run1_establish {fetch : String → Option (List RemoteEpisode)} {db : DB}
    (hurl : FeedUrlsDistinct db) (rest : List Podcast) :
    ∀ acc : DB, acc.WF → acc.podcasts = db.podcasts →
      (∀ q ∈ rest, q ∈ db.podcasts) →
      rest.Pairwise (fun p q => p.id ≠ q.id) →
      (∀ q ∈ rest, DistinctDirids (acc.episodes.filter
        (fun e => e.podcastId == q.id.getD 0))) →
      ∀ q ∈ rest, ∀ R, fetch q.feedUrl = some R →
        SatDB (PodcastsController.updatePodcastsOn fetch acc rest)
          (q.id.getD 0) R := by
  induction rest with
  | nil => intro acc _ _ _ _ _ q hq; cases hq
  | cons q₀ t ih =>
    intro acc hwf hpods hmem hpair hdist q hq R hfR
    unfold PodcastsController.updatePodcastsOn at *
    rw [List.foldl_cons]
    have hwf₁ : (PodcastsController.updatePodcastsStep fetch acc q₀).WF :=
      updatePodcastsStep_WF q₀ hwf
    have hpods₁ : (PodcastsController.updatePodcastsStep fetch acc q₀).podcasts =
        db.podcasts := by
      rw [updatePodcastsStep_podcasts, hpods]
    have hurlacc : FeedUrlsDistinct acc := feedUrlsDistinct_of_eq hpods hurl
    have hq₀db : q₀ ∈ db.podcasts := hmem q₀ (by simp)
    have hq₀acc : q₀ ∈ acc.podcasts := by rw [hpods]; exact hq₀db
    obtain ⟨hpairhead, hpairtail⟩ := List.pairwise_cons.mp hpair
    have hframe : ∀ pid, q₀.id.getD 0 ≠ pid →
        (PodcastsController.updatePodcastsStep fetch acc q₀).episodes.filter
          (fun e => e.podcastId == pid) =
        acc.episodes.filter (fun e => e.podcastId == pid) :=
      fun pid hne => updatePodcastsStep_filter_frame hwf hurlacc hq₀acc hne
    have hgetne : ∀ w ∈ t, q₀.id.getD 0 ≠ w.id.getD 0 := by
      intro w hw
      have hwacc : w ∈ acc.podcasts := by
        rw [hpods]; exact hmem w (by simp [hw])
      exact podcast_getD_ne hwf hq₀acc hwacc (hpairhead w hw)
    rcases List.mem_cons.mp hq with rfl | hqt
    · have hsat₁ : SatDB (PodcastsController.updatePodcastsStep fetch acc q)
          (q.id.getD 0) R :=
        updatePodcastsStep_saturates hwf hurlacc hq₀acc hfR
          (hdist q (by simp))
      have hfinal := updatePodcastsOn_filter_frame fetch (q.id.getD 0) hurl t
        (PodcastsController.updatePodcastsStep fetch acc q) hwf₁ hpods₁
        (fun w hw => hmem w (by simp [hw]))
        (fun w hw => Or.inr (hgetne w hw).symm)
      exact satDB_of_filter_eq hfinal hsat₁
    · refine ih (PodcastsController.updatePodcastsStep fetch acc q₀) hwf₁ hpods₁
        (fun w hw => hmem w (by simp [hw])) hpairtail ?_ q hqt R hfR
      intro w hw
      unfold DistinctDirids
      rw [hframe _ (hgetne w hw)]
      exact hdist w (by simp [hw])

theorem updatePodcastsStep_fix {fetch : String → Option (List RemoteEpisode)}
    {db' : DB} {q : Podcast}
    (hwf : db'.WF) (hurl : FeedUrlsDistinct db') (hq : q ∈ db'.podcasts)
    (hsat : ∀ R, fetch q.feedUrl = some R → SatDB db' (q.id.getD 0) R) :
    PodcastsController.updatePodcastsStep fetch db' q = db' := by
  unfold PodcastsController.updatePodcastsStep
  cases hf : fetch q.feedUrl with
  | none => rfl
  | some R =>
    dsimp only
    rw [controller_getEpisodes_eq hurl hq]
    have hs := hsat R hf
    unfold SatDB at hs
    obtain ⟨hpresF, hmetaF, hdF⟩ := hs
    have hperm : (OfflineStorageHandler.getEpisodes db' (q.id.getD 0)).Perm
        (db'.episodes.filter (fun e => e.podcastId == q.id.getD 0)) :=
      sortByDesc_perm _ _
    have hfix : PodcastsController.reconcileEpisodes (q.id.getD 0)
        (OfflineStorageHandler.getEpisodes db' (q.id.getD 0)) R =
        OfflineStorageHandler.getEpisodes db' (q.id.getD 0) := by
      refine reconcile_fix_lastRemote (q.id.getD 0) R ?_ ?_ ?_
      · unfold DistinctDirids at hdF ⊢
        exact (hperm.pairwise_iff (fun h => h.symm)).mpr hdF
      · intro r hr
        obtain ⟨x, hxf, hxid⟩ := hpresF r hr
        exact ⟨x, hperm.mem_iff.mpr hxf, hxid⟩
      · intro x hx r hr
        exact hmetaF x (hperm.mem_iff.mp hx) r hr
    rw [hfix]
    apply putEpisodes_self hwf
    intro x hx
    exact (mem_storedEpisodes hx).1

theorem updatePodcastsOn_fix {fetch : String → Option (List RemoteEpisode)}
    {db' : DB} (hwf : db'.WF) (hurl : FeedUrlsDistinct db')
    (ps : List Podcast) (hmem : ∀ q ∈ ps, q ∈ db'.podcasts)
    (hsat : ∀ q ∈ ps, ∀ R, fetch q.feedUrl = some R →
      SatDB db' (q.id.getD 0) R) :
    PodcastsController.updatePodcastsOn fetch db' ps = db' := by
  induction ps with
  | nil => rfl
  | cons q t ih =>
    unfold PodcastsController.updatePodcastsOn at *
    rw [List.foldl_cons, updatePodcastsStep_fix hwf hurl (hmem q (by simp))
      (fun R hf => hsat q (by simp) R hf)]
    exact ih (fun w hw => hmem w (by simp [hw]))
      (fun w hw R hf => hsat w (by simp [hw]) R hf)

theorem descRel_getD {k : Episode → Option Nat} {a b : Episode}
    (h : descRel k a b) : (k b).getD 0 ≤ (k a).getD 0 := by
  unfold descRel at h
  cases ka : k a <;> cases kb : k b <;>
    rw [ka, kb] at h <;> simp [optKey] at h ⊢ <;> omega

/- The claims. -/

/-- C1: after adding the podcast at feedUrl https://example.com/feed.xml while
the directory returns episodes with ids 1, 2 and 3, a refresh in which the
directory returns ids 2, 3 and 4 leaves the stored episode with directory id 1
untouched, refreshes episodes 2 and 3 in place under their original local
ids, and appends episode 4 as a new record tagged with the podcast id, for a
total of four stored episodes. -/
theorem C1_add_then_refresh_scenario :
    PodcastsController.addPodcast DB.empty c1toAdd c1remotePodcast
        [c1e1, c1e2, c1e3] 50 = Except.ok c1db1 ∧
    c1db1.episodes = [c1s1, c1s2, c1s3] ∧
    c1db2.episodes = [c1s1, c1m2, c1m3, c1m4] := by
  decide

/-- C2: the reconciliation merge is a shallow overlay of the mapped remote
fields over the first stored episode whose directory id matches: the user
state (position, lastTimeListened, finished) and every stored field not in
the mapped payload (local id, podcastId, categories, duration) survive, the
eight mapped metadata fields are overwritten, and a remote episode with no
match is appended as a new record tagged with the podcast local id. -/
theorem C2_reconcile_shallow_overlay (pid : Nat) (r : RemoteEpisode)
    (l₁ l₂ : List Episode) (s : Episode)
    (hl₁ : ∀ y ∈ l₁, y.podcastIndexOrgId ≠ r.id)
    (hs : s.podcastIndexOrgId = r.id) :
    PodcastsController.reconcileEpisode pid (l₁ ++ s :: l₂) r =
      l₁ ++ PodcastsController.mergeRemoteEpisode s r :: l₂ ∧
    (PodcastsController.mergeRemoteEpisode s r).position = s.position ∧
    (PodcastsController.mergeRemoteEpisode s r).lastTimeListened =
      s.lastTimeListened ∧
    (PodcastsController.mergeRemoteEpisode s r).finished = s.finished ∧
    (PodcastsController.mergeRemoteEpisode s r).id = s.id ∧
    (PodcastsController.mergeRemoteEpisode s r).podcastId = s.podcastId ∧
    (PodcastsController.mergeRemoteEpisode s r).categories = s.categories ∧
    (PodcastsController.mergeRemoteEpisode s r).duration = s.duration ∧
    (PodcastsController.mergeRemoteEpisode s r).title = r.title ∧
    (PodcastsController.mergeRemoteEpisode s r).link = r.link ∧
    (PodcastsController.mergeRemoteEpisode s r).description = r.description ∧
    (PodcastsController.mergeRemoteEpisode s r).pubDate = some r.pubDate ∧
    (PodcastsController.mergeRemoteEpisode s r).imageUrl = r.imageUrl ∧
    (PodcastsController.mergeRemoteEpisode s r).enclosure = r.enclosure ∧
    (PodcastsController.mergeRemoteEpisode s r).guid = r.guid ∧
    (PodcastsController.mergeRemoteEpisode s r).podcastIndexOrgId = r.id ∧
    (∀ l : List Episode, (∀ y ∈ l, y.podcastIndexOrgId ≠ r.id) →
      PodcastsController.reconcileEpisode pid l r =
        l ++ [{ PodcastsController.mapPodcastIndexOrgEpisodeToStorage r with
          podcastId := pid }]) ∧
    ({ PodcastsController.mapPodcastIndexOrgEpisodeToStorage r with
      podcastId := pid }).podcastId = pid := by
  refine ⟨?_, rfl, rfl, rfl, rfl, rfl, rfl, rfl, rfl, rfl, rfl, rfl, rfl, rfl,
    rfl, rfl, ?_, rfl⟩
  · unfold PodcastsController.reconcileEpisode
    rw [overlayFirst_app_match hl₁ hs]
  · intro l hl
    unfold PodcastsController.reconcileEpisode
    rw [overlayFirst_none_iff.mpr hl]

theorem C2_reconcile_shallow_overlay_witness :
    PodcastsController.reconcileEpisode 4 ([w2other] ++ w2stored :: []) w2r =
      [w2other] ++ PodcastsController.mergeRemoteEpisode w2stored w2r :: [] ∧
    (PodcastsController.mergeRemoteEpisode w2stored w2r).position =
      w2stored.position ∧
    (PodcastsController.mergeRemoteEpisode w2stored w2r).lastTimeListened =
      w2stored.lastTimeListened ∧
    (PodcastsController.mergeRemoteEpisode w2stored w2r).finished =
      w2stored.finished ∧
    (PodcastsController.mergeRemoteEpisode w2stored w2r).id = w2stored.id ∧
    (PodcastsController.mergeRemoteEpisode w2stored w2r).podcastId =
      w2stored.podcastId ∧
    (PodcastsController.mergeRemoteEpisode w2stored w2r).categories =
      w2stored.categories ∧
    (PodcastsController.mergeRemoteEpisode w2stored w2r).duration =
      w2stored.duration ∧
    (PodcastsController.mergeRemoteEpisode w2stored w2r).title = w2r.title ∧
    (PodcastsController.mergeRemoteEpisode w2stored w2r).link = w2r.link ∧
    (PodcastsController.mergeRemoteEpisode w2stored w2r).description =
      w2r.description ∧
    (PodcastsController.mergeRemoteEpisode w2stored w2r).pubDate =
      some w2r.pubDate ∧
    (PodcastsController.mergeRemoteEpisode w2stored w2r).imageUrl =
      w2r.imageUrl ∧
    (PodcastsController.mergeRemoteEpisode w2stored w2r).enclosure =
      w2r.enclosure ∧
    (PodcastsController.mergeRemoteEpisode w2stored w2r).guid = w2r.guid ∧
    (PodcastsController.mergeRemoteEpisode w2stored w2r).podcastIndexOrgId =
      w2r.id ∧
    (∀ l : List Episode, (∀ y ∈ l, y.podcastIndexOrgId ≠ w2r.id) →
      PodcastsController.reconcileEpisode 4 l w2r =
        l ++ [{ PodcastsController.mapPodcastIndexOrgEpisodeToStorage w2r with
          podcastId := 4 }]) ∧
    ({ PodcastsController.mapPodcastIndexOrgEpisodeToStorage w2r with
      podcastId := 4 }).podcastId = 4 :=
  C2_reconcile_shallow_overlay 4 w2r [w2other] [] w2stored (by decide) (by decide)

/-- C7: deleting a podcast by id removes the podcast record and every episode
carrying its podcastId: the lookup by id afterwards is none, and the episode
query for that podcast is empty. -/
theorem C7_delete_cascades (db : DB) (i : Nat) :
    PodcastsController.getPodcastById
      (PodcastsController.deletePodcastById db i) i = none ∧
    OfflineStorageHandler.getEpisodes
      (PodcastsController.deletePodcastById db i) i = [] := by
  constructor
  · unfold PodcastsController.getPodcastById OfflineStorageHandler.getPodcastById
      PodcastsController.deletePodcastById OfflineStorageHandler.deletePodcastById
    apply List.find?_eq_none.mpr
    intro x hx
    have hne := (List.mem_filter.mp hx).2
    simp only [decide_eq_true_eq] at hne
    simp [hne]
  · unfold OfflineStorageHandler.getEpisodes PodcastsController.deletePodcastById
      OfflineStorageHandler.deletePodcastById
    dsimp only
    have hnil : (db.episodes.filter (fun e => decide (e.podcastId ≠ i))).filter
        (fun e => e.podcastId == i) = [] := by
      rw [List.filter_eq_nil_iff]
      intro a ha
      have h2 := (List.mem_filter.mp ha).2
      simp only [decide_eq_true_eq] at h2
      simp [h2]
    rw [hnil]
    rfl

/-- C8: getAllEpisodes returns at most count episodes, every returned episode
has a publish date defined and at most asOfPubDate, and the result is sorted
by publish date in descending order. -/
theorem C8_getAllEpisodes_bounded_sorted (db : DB) (count asOfPubDate : Nat) :
    (PodcastsController.getAllEpisodes db count asOfPubDate).length ≤ count ∧
    (∀ w ∈ PodcastsController.getAllEpisodes db count asOfPubDate,
      ∃ d, w.episode.pubDate = some d ∧ d ≤ asOfPubDate) ∧
    (PodcastsController.getAllEpisodes db count asOfPubDate).Pairwise
      (fun a b => b.episode.pubDate.getD 0 ≤ a.episode.pubDate.getD 0) := by
  unfold PodcastsController.getAllEpisodes PodcastsController.addPodcastToEpisodes
    OfflineStorageHandler.getAllEpisodes
  refine ⟨?_, ?_, ?_⟩
  · rw [List.length_map, List.length_take]
    exact inf_le_left
  · intro w hw
    obtain ⟨e, he, rfl⟩ := List.mem_map.mp hw
    have he2 := List.mem_of_mem_take he
    rw [mem_sortByDesc] at he2
    have hp := (List.mem_filter.mp he2).2
    cases hd : e.pubDate with
    | none => rw [hd] at hp; cases hp
    | some d =>
      rw [hd] at hp
      exact ⟨d, rfl, by simpa using hp⟩
  · apply List.pairwise_map.mpr
    have hsorted := sortByDesc_sorted (fun e => e.pubDate)
      (db.episodes.filter (fun e =>
        match e.pubDate with
        | some d => decide (d ≤ asOfPubDate)
        | none => false))
    have htake := List.Pairwise.sublist (List.take_sublist count _) hsorted
    exact htake.imp (fun hab => descRel_getD hab)

/-- C10: the un-awaited, fire-and-forget putEpisodes write-back means a store
write failure during the refresh is never surfaced: the refresh with a set of
failing writes computes exactly the refresh in which those podcasts were
skipped, so updatePodcasts never fails because of a store write. -/
theorem C10_put_failures_swallowed (db : DB)
    (fetch : String → Option (List RemoteEpisode)) (putOk : String → Bool) :
    PodcastsController.updatePodcastsFallible db fetch putOk =
      PodcastsController.updatePodcasts db
        (fun url => if putOk url then fetch url else none) := by
  have hstep : PodcastsController.updatePodcastsStepFallible fetch putOk =
      PodcastsController.updatePodcastsStep
        (fun url => if putOk url then fetch url else none) := by
    funext acc q
    unfold PodcastsController.updatePodcastsStepFallible
      PodcastsController.updatePodcastsStep
    by_cases hok : putOk q.feedUrl = true
    · cases hf : fetch q.feedUrl <;> simp [hok, hf]
    · have hok2 : putOk q.feedUrl = false := by simpa using hok
      cases hf : fetch q.feedUrl <;> simp [hok2, hf]
  unfold PodcastsController.updatePodcastsFallible
    PodcastsController.updatePodcasts PodcastsController.updatePodcastsOn
  rw [hstep]

/-- C5: once a podcast with a feed URL is stored, a second store-level
addPodcast with the same feed URL is rejected by the unique feedUrl
constraint, no second record with that feed URL exists, and feed URL
uniqueness across podcasts is preserved by the successful insert. -/
theorem C5_duplicate_feedUrl_rejected (db db1 : DB) (p1 p2 : Podcast) (i : Nat)
    (h : OfflineStorageHandler.addPodcast db p1 = Except.ok (db1, i))
    (hurl : p2.feedUrl = p1.feedUrl) :
    (∃ msg, OfflineStorageHandler.addPodcast db1 p2 = Except.error msg) ∧
    (db1.podcasts.filter (fun q => q.feedUrl == p1.feedUrl)).length = 1 ∧
    (FeedUrlsDistinct db → FeedUrlsDistinct db1) := by
  unfold OfflineStorageHandler.addPodcast at h
  by_cases hany : (db.podcasts.any fun q => q.feedUrl == p1.feedUrl) = true
  · rw [if_pos hany] at h; cases h
  · rw [if_neg hany] at h
    simp only [Except.ok.injEq, Prod.mk.injEq] at h
    obtain ⟨hdb1, hi⟩ := h
    subst hdb1
    have hnone : ∀ qq ∈ db.podcasts, ¬(qq.feedUrl == p1.feedUrl) = true := by
      intro qq hqq hc
      exact hany (List.any_eq_true.mpr ⟨qq, hqq, hc⟩)
    refine ⟨?_, ?_, ?_⟩
    · refine ⟨"ConstraintError: feedUrl exists", ?_⟩
      unfold OfflineStorageHandler.addPodcast
      rw [if_pos ?_]
      dsimp only
      apply List.any_eq_true.mpr
      exact ⟨{ p1 with id := some db.nextPodcastId },
        List.mem_append.mpr (Or.inr (by simp)), by simp [hurl]⟩
    · dsimp only
      rw [List.filter_append, List.filter_eq_nil_iff.mpr hnone]
      simp
    · intro hfd
      unfold FeedUrlsDistinct at *
      dsimp only
      rw [List.pairwise_append]
      refine ⟨hfd, by simp, ?_⟩
      intro a ha b hb
      simp only [List.mem_singleton] at hb
      subst hb
      have := hnone a ha
      simp only [beq_iff_eq] at this
      simpa using this

theorem C5_duplicate_feedUrl_rejected_witness :
    (∃ msg, OfflineStorageHandler.addPodcast
      ((OfflineStorageHandler.addPodcast DB.empty w4p1).toOption.getD
        (DB.empty, 0)).1 w4p1 = Except.error msg) ∧
    (((OfflineStorageHandler.addPodcast DB.empty w4p1).toOption.getD
        (DB.empty, 0)).1.podcasts.filter
      (fun q => q.feedUrl == w4p1.feedUrl)).length = 1 ∧
    (FeedUrlsDistinct DB.empty → FeedUrlsDistinct
      ((OfflineStorageHandler.addPodcast DB.empty w4p1).toOption.getD
        (DB.empty, 0)).1) :=
  C5_duplicate_feedUrl_rejected DB.empty _ w4p1 w4p1 1 (by decide) rfl

/-- C4: when the remote fetch for one stored podcast fails during
updatePodcasts, that podcast is skipped with its stored episodes exactly
unchanged, and the whole refresh computes the refresh restricted to the
podcasts whose fetch succeeded — a per-podcast failure never aborts it. -/
theorem C4_fetch_failure_isolated (db : DB)
    (fetch : String → Option (List RemoteEpisode)) (p : Podcast)
    (hwf : db.WF) (hurl : FeedUrlsDistinct db) (hp : p ∈ db.podcasts)
    (hfail : fetch p.feedUrl = none) :
    (PodcastsController.updatePodcasts db fetch).episodes.filter
        (fun e => e.podcastId == p.id.getD 0) =
      db.episodes.filter (fun e => e.podcastId == p.id.getD 0) ∧
    PodcastsController.updatePodcasts db fetch =
      PodcastsController.updatePodcastsOn fetch db
        (db.podcasts.filter (fun q => (fetch q.feedUrl).isSome)) := by
  have heq : PodcastsController.updatePodcasts db fetch =
      PodcastsController.updatePodcastsOn fetch db db.podcasts := rfl
  constructor
  · rw [heq]
    apply updatePodcastsOn_filter_frame fetch (p.id.getD 0) hurl db.podcasts db
      hwf rfl (fun q hq => hq)
    intro q hq
    by_cases hqp : q.id.getD 0 = p.id.getD 0
    · left
      obtain ⟨a, hqa, -⟩ := wf_podcast_id hwf hq
      obtain ⟨b, hpb, -⟩ := wf_podcast_id hwf hp
      have hidq : q.id = p.id := by
        rw [hqa, hpb]
        rw [hqa, hpb] at hqp
        simpa using hqp
      have hqp2 : q = p := mem_unique_by_key hwf.2.1 hq hp hidq
      rw [hqp2, hfail]
    · right; exact hqp
  · rw [heq]
    exact updatePodcastsOn_skip_failed fetch db.podcasts db

theorem C4_fetch_failure_isolated_witness :
    (PodcastsController.updatePodcasts w4db w4fetch).episodes.filter
        (fun e => e.podcastId == w4p1.id.getD 0) =
      w4db.episodes.filter (fun e => e.podcastId == w4p1.id.getD 0) ∧
    PodcastsController.updatePodcasts w4db w4fetch =
      PodcastsController.updatePodcastsOn w4fetch w4db
        (w4db.podcasts.filter (fun q => (w4fetch q.feedUrl).isSome)) :=
  C4_fetch_failure_isolated w4db w4fetch w4p1 (by decide) (by decide)
    (by decide) (by decide)

theorem applyPodcastPatch_feedUrl (p : Podcast) (c : PodcastPatch) :
    (applyPodcastPatch p c).feedUrl = c.feedUrl.getD p.feedUrl := rfl

theorem updatePodcast_podcasts_append (db0 : DB) (old : List Podcast)
    (P : Podcast) (c : PodcastPatch) (hpods : db0.podcasts = old ++ [P])
    (hold : ∀ q ∈ old, q.id ≠ some c.id) (hPid : P.id = some c.id) :
    (OfflineStorageHandler.updatePodcast db0 c).podcasts =
      old ++ [applyPodcastPatch P c] := by
  unfold OfflineStorageHandler.updatePodcast
  dsimp only
  rw [hpods, List.map_append]
  congr 1
  · exact list_map_eq_self (fun q hq => if_neg (hold q hq))
  · rw [List.map_singleton, if_pos hPid]

/-- C6: when the controller addPodcast pipeline completes successfully, the
subsequent lookup by the added feed URL returns a record whose status is
processed and whose directory fetch timestamp is set to the stamping time. -/
theorem C6_addPodcast_processed (db : DB) (toAdd : PodcastsController.PodcastToAdd)
    (remote : RemotePodcast) (remoteEpisodes : List RemoteEpisode) (now : Nat)
    (db4 : DB) (hwf : db.WF)
    (h : PodcastsController.addPodcast db toAdd remote remoteEpisodes now =
      Except.ok db4) :
    ∃ rec, PodcastsController.getPodcast db4 toAdd.feedUrl = some rec ∧
      rec.status = PodcastStatus.processed ∧
      rec.podcastIndexOrgLastEpisodeFetch = some now := by
  unfold PodcastsController.addPodcast at h
  set p0 : Podcast :=
    { feedUrl := toAdd.feedUrl
      title := toAdd.title
      description := toAdd.description
      imageUrl := toAdd.imageUrl
      subscribed := toAdd.subscribed
      podcastIndexOrgId := toAdd.podcastIndexOrgId
      status := PodcastStatus.new } with hp0
  revert h
  cases hadd : OfflineStorageHandler.addPodcast db p0 with
  | error e => intro h; cases h
  | ok pr =>
    obtain ⟨db1, pid⟩ := pr
    intro h
    dsimp only at h
    simp only [Except.ok.injEq] at h
    unfold OfflineStorageHandler.addPodcast at hadd
    by_cases hany : (db.podcasts.any fun q => q.feedUrl == p0.feedUrl) = true
    · rw [if_pos hany] at hadd; cases hadd
    · rw [if_neg hany] at hadd
      simp only [Except.ok.injEq, Prod.mk.injEq] at hadd
      obtain ⟨hdb1, hpid⟩ := hadd
      subst hpid
      subst hdb1
      subst h
      have hold : ∀ q ∈ db.podcasts, q.id ≠ some db.nextPodcastId := by
        intro q hq
        obtain ⟨j, hqj, hjlt⟩ := wf_podcast_id hwf hq
        rw [hqj]
        simp only [ne_eq, Option.some.injEq]
        omega
      have hstep1 := updatePodcast_podcasts_append
        { db with
          podcasts := db.podcasts ++ [{ p0 with id := some db.nextPodcastId }]
          nextPodcastId := db.nextPodcastId + 1 }
        db.podcasts { p0 with id := some db.nextPodcastId }
        ({ id := db.nextPodcastId
           title := some remote.title
           description := some remote.description
           link := some remote.link
           imageUrl := some remote.imageUrl
           podcastIndexOrgId := some (some remote.id)
           value := match remote.value with
             | some v => some (some [v])
             | none => none } : PodcastPatch)
        rfl hold rfl
      have hstep2 := updatePodcast_podcasts_append
        (OfflineStorageHandler.putEpisodes
          (OfflineStorageHandler.updatePodcast
            { db with
              podcasts := db.podcasts ++ [{ p0 with id := some db.nextPodcastId }]
              nextPodcastId := db.nextPodcastId + 1 }
            { id := db.nextPodcastId
              title := some remote.title
              description := some remote.description
              link := some remote.link
              imageUrl := some remote.imageUrl
              podcastIndexOrgId := some (some remote.id)
              value := match remote.value with
                | some v => some (some [v])
                | none => none })
          (remoteEpisodes.map (fun e =>
            { PodcastsController.mapPodcastIndexOrgEpisodeToStorage e with
              podcastId := db.nextPodcastId })))
        db.podcasts
        (applyPodcastPatch { p0 with id := some db.nextPodcastId }
          { id := db.nextPodcastId
            title := some remote.title
            description := some remote.description
            link := some remote.link
            imageUrl := some remote.imageUrl
            podcastIndexOrgId := some (some remote.id)
            value := match remote.value with
              | some v => some (some [v])
              | none => none })
        ({ id := db.nextPodcastId
           status := some PodcastStatus.processed
           podcastIndexOrgLastEpisodeFetch := some (some now) } : PodcastPatch)
        (by rw [putEpisodes_podcasts]; exact hstep1) hold
        (by rw [applyPodcastPatch_id])
      refine ⟨applyPodcastPatch
        (applyPodcastPatch { p0 with id := some db.nextPodcastId }
          { id := db.nextPodcastId
            title := some remote.title
            description := some remote.description
            link := some remote.link
            imageUrl := some remote.imageUrl
            podcastIndexOrgId := some (some remote.id)
            value := match remote.value with
              | some v => some (some [v])
              | none => none })
        { id := db.nextPodcastId
          status := some PodcastStatus.processed
          podcastIndexOrgLastEpisodeFetch := some (some now) }, ?_, rfl, rfl⟩
      unfold PodcastsController.getPodcast OfflineStorageHandler.getPodcast
      rw [hstep2, List.find?_append]
      have hnone : db.podcasts.find? (fun p => p.feedUrl == toAdd.feedUrl) =
          none := by
        apply List.find?_eq_none.mpr
        intro x hx hc
        apply hany
        exact List.any_eq_true.mpr ⟨x, hx, hc⟩
      rw [hnone]
      simp only [Option.none_or]
      exact List.find?_cons_of_pos _ (beq_self_eq_true toAdd.feedUrl)

theorem C6_addPodcast_processed_witness :
    DB.WF DB.empty ∧
    (∃ rec, PodcastsController.getPodcast w6db4 w6toAdd.feedUrl = some rec ∧
      rec.status = PodcastStatus.processed ∧
      rec.podcastIndexOrgLastEpisodeFetch = some 7) :=
  ⟨by decide,
    C6_addPodcast_processed DB.empty w6toAdd w6remote [] 7 w6db4 (by decide)
      (by decide)⟩

/-- C9: updateEpisodeCurrentTime on an existing episode sets its position to
the given value and stamps lastTimeListened with the current time, leaves
every other field of that episode unchanged, is the unique episode under that
id afterwards, and the episode then appears in getEpisodesInProgress. -/
theorem C9_updateEpisodeCurrentTime (db : DB) (e : Episode) (i t now : Nat)
    (hwf : db.WF) (he : e ∈ db.episodes) (hid : e.id = some i) :
    ∃ e2 ∈ (PodcastsController.updateEpisodeCurrentTime db i t now).episodes,
      e2.id = some i ∧ e2.position = some t ∧ e2.lastTimeListened = some now ∧
      e2.podcastId = e.podcastId ∧ e2.title = e.title ∧ e2.link = e.link ∧
      e2.description = e.description ∧ e2.imageUrl = e.imageUrl ∧
      e2.categories = e.categories ∧ e2.pubDate = e.pubDate ∧
      e2.enclosure = e.enclosure ∧ e2.duration = e.duration ∧
      e2.guid = e.guid ∧ e2.podcastIndexOrgId = e.podcastIndexOrgId ∧
      e2.finished = e.finished ∧
      (∀ f ∈ (PodcastsController.updateEpisodeCurrentTime db i t now).episodes,
        f.id = some i → f = e2) ∧
      (∃ w ∈ PodcastsController.getEpisodesInProgress
        (PodcastsController.updateEpisodeCurrentTime db i t now),
        w.episode = e2) := by
  have hmem : applyEpisodePatch e
      { id := i
        position := some (some t)
        lastTimeListened := some (some now) } ∈
      (PodcastsController.updateEpisodeCurrentTime db i t now).episodes := by
    unfold PodcastsController.updateEpisodeCurrentTime
      OfflineStorageHandler.updateEpisode
    dsimp only
    refine List.mem_map.mpr ⟨e, he, ?_⟩
    rw [if_pos hid]
  refine ⟨applyEpisodePatch e
    { id := i
      position := some (some t)
      lastTimeListened := some (some now) }, hmem,
    by rw [applyEpisodePatch_id, hid], rfl, rfl, rfl, rfl, rfl, rfl, rfl, rfl,
    rfl, rfl, rfl, rfl, rfl, rfl, ?_, ?_⟩
  · intro f hf hfid
    unfold PodcastsController.updateEpisodeCurrentTime
      OfflineStorageHandler.updateEpisode at hf
    dsimp only at hf
    obtain ⟨s, hs, hsf⟩ := List.mem_map.mp hf
    by_cases hsi : s.id = some i
    · have hse : s = e := mem_unique_by_key hwf.2.2.2 hs he (by rw [hsi, hid])
      rw [← hsf, if_pos hsi, hse]
    · rw [← hsf] at hfid
      rw [if_neg hsi] at hfid
      exact absurd hfid hsi
  · unfold PodcastsController.getEpisodesInProgress
      PodcastsController.addPodcastToEpisodes
      OfflineStorageHandler.getEpisodesInProgress
    refine ⟨_, List.mem_map.mpr ⟨applyEpisodePatch e
      { id := i
        position := some (some t)
        lastTimeListened := some (some now) }, ?_, rfl⟩, rfl⟩
    rw [mem_sortByDesc]
    exact List.mem_filter.mpr ⟨hmem, rfl⟩

theorem C9_updateEpisodeCurrentTime_witness :
    DB.WF w9db ∧ w9e ∈ w9db.episodes ∧ w9e.id = some 1 ∧
    (∃ e2 ∈ (PodcastsController.updateEpisodeCurrentTime w9db 1 120 77).episodes,
      e2.id = some 1 ∧ e2.position = some 120 ∧ e2.lastTimeListened = some 77 ∧
      e2.podcastId = w9e.podcastId ∧ e2.title = w9e.title ∧ e2.link = w9e.link ∧
      e2.description = w9e.description ∧ e2.imageUrl = w9e.imageUrl ∧
      e2.categories = w9e.categories ∧ e2.pubDate = w9e.pubDate ∧
      e2.enclosure = w9e.enclosure ∧ e2.duration = w9e.duration ∧
      e2.guid = w9e.guid ∧ e2.podcastIndexOrgId = w9e.podcastIndexOrgId ∧
      e2.finished = w9e.finished ∧
      (∀ f ∈ (PodcastsController.updateEpisodeCurrentTime w9db 1 120 77).episodes,
        f.id = some 1 → f = e2) ∧
      (∃ w ∈ PodcastsController.getEpisodesInProgress
        (PodcastsController.updateEpisodeCurrentTime w9db 1 120 77),
        w.episode = e2)) :=
  ⟨by decide, by decide, by decide,
    C9_updateEpisodeCurrentTime w9db w9e 1 120 77 (by decide) (by decide)
      (by decide)⟩

/-- C3 (counterexample): with the podcast subscribed while the directory
listed two episodes that share directory id 7, a refresh returning a single
episode with id 7 is not idempotent — the second updatePodcasts run changes
the stored collection again, because the first overlay changed the publish
date that drives the descending sort and the findIndex match lands on the
other duplicate. -/
theorem C3_idempotence_counterexample :
    PodcastsController.updatePodcasts
        (PodcastsController.updatePodcasts ceDb1 ceFetch) ceFetch ≠
      PodcastsController.updatePodcasts ceDb1 ceFetch ∧
    (PodcastsController.updatePodcasts
        (PodcastsController.updatePodcasts ceDb1 ceFetch) ceFetch).episodes ≠
      (PodcastsController.updatePodcasts ceDb1 ceFetch).episodes := by
  decide

/-- C3 (amended): provided the stored episodes of each podcast carry
pairwise-distinct directory-service ids, and the store is well formed with
unique feed URLs, running updatePodcasts twice in succession against an
unchanged remote equals running it once: the second run leaves the stored
collection unchanged and inserts no duplicates. The remote lists may repeat
ids: after the first run each stored record holds the metadata of the last
remote occurrence of its directory id, which the second run reproduces. -/
theorem C3_idempotence_amended (db : DB)
    (fetch : String → Option (List RemoteEpisode))
    (hwf : db.WF) (hurl : FeedUrlsDistinct db)
    (hstored : ∀ p ∈ db.podcasts, DistinctDirids (db.episodes.filter
      (fun e => e.podcastId == p.id.getD 0))) :
    PodcastsController.updatePodcasts
      (PodcastsController.updatePodcasts db fetch) fetch =
      PodcastsController.updatePodcasts db fetch := by
  have hrun1 : PodcastsController.updatePodcasts db fetch =
      PodcastsController.updatePodcastsOn fetch db db.podcasts := rfl
  have hwf2 : (PodcastsController.updatePodcasts db fetch).WF := by
    rw [hrun1]
    exact updatePodcastsOn_WF db.podcasts db hwf
  have hpods2 : (PodcastsController.updatePodcasts db fetch).podcasts =
      db.podcasts := by
    rw [hrun1]
    exact updatePodcastsOn_podcasts fetch db.podcasts db
  have hurl2 : FeedUrlsDistinct (PodcastsController.updatePodcasts db fetch) :=
    feedUrlsDistinct_of_eq hpods2 hurl
  have hsat : ∀ q ∈ db.podcasts, ∀ R, fetch q.feedUrl = some R →
      SatDB (PodcastsController.updatePodcasts db fetch) (q.id.getD 0) R := by
    rw [hrun1]
    exact run1_establish hurl db.podcasts db hwf rfl (fun q hq => hq)
      hwf.2.1 hstored
  have hrun2 : PodcastsController.updatePodcasts
      (PodcastsController.updatePodcasts db fetch) fetch =
      PodcastsController.updatePodcastsOn fetch
        (PodcastsController.updatePodcasts db fetch)
        (PodcastsController.updatePodcasts db fetch).podcasts := rfl
  rw [hrun2, hpods2]
  exact updatePodcastsOn_fix hwf2 hurl2 db.podcasts
    (fun q hq => by rw [hpods2]; exact hq)
    (fun q hq R hf => hsat q hq R hf)

theorem C3_idempotence_amended_witness :
    DB.WF c1db1 ∧ FeedUrlsDistinct c1db1 ∧
    PodcastsController.updatePodcasts
      (PodcastsController.updatePodcasts c1db1 c1fetch) c1fetch =
      PodcastsController.updatePodcasts c1db1 c1fetch :=
  ⟨by decide, by decide,
    C3_idempotence_amended c1db1 c1fetch (by decide) (by decide) (by decide)⟩
